import Mathlib

/-
Verification development for the lambda-calculus visualizer core:
term model, capture-avoiding substitution, beta reduction (normal and
applicative order), de Bruijn conversion, diagram layout, and the
surface-syntax parser/printer.  Each definition is a shallow embedding of
the corresponding TypeScript function; JavaScript strings are Lean
Strings, JavaScript numbers are Nat/Int/Rat as appropriate, arrays are
lists, and functions that throw are modelled with Except.
-/

set_option maxRecDepth 4000

/-! ## Decimal rendering of numbers

JavaScript template interpolation of a counter renders it in decimal.
We embed that printing (most-significant digit first) with explicit fuel;
the fuel is provably irrelevant as soon as it exceeds the number. -/

/-- Decimal digits of a number, most significant first, with fuel. -/
def decimalDigitsAux : Nat → Nat → List Char
  | 0, _ => []
  | fuel + 1, n =>
    if n < 10 then [Nat.digitChar n]
    else decimalDigitsAux fuel (n / 10) ++ [Nat.digitChar (n % 10)]

/-- Decimal rendering of a natural number, as produced by JS string interpolation. -/
def natToString (n : Nat) : String :=
  String.mk (decimalDigitsAux (n + 1) n)

/-- Reading a digit list back as a number (used only to prove injectivity). -/
def natFromDigits (l : List Char) : Nat :=
  l.foldl (fun acc c => 10 * acc + (c.toNat - 48)) 0

/-! ## Term model

The tagged union from types/lambda.ts: Variable, Abstraction, Application. -/

/-- Lambda term in named form, mirroring the LambdaExpr tagged union. -/
inductive Expr where
  | var (name : String)
  | abs (param : String) (body : Expr)
  | app (left : Expr) (right : Expr)

deriving DecidableEq, Repr

/-- Size of a term, used as recursion fuel for substitution. -/
def Expr.size : Expr → Nat
  | .var _ => 1
  | .abs _ body => body.size + 1
  | .app left right => left.size + right.size + 1

namespace LambdaEvaluator

/-- Embeds LambdaEvaluator.containsFreeVariable from evaluator.ts. -/
def containsFreeVariable (expr : Expr) (name : String) : Bool :=
  match expr with
  | .var n => n == name
  | .app left right => containsFreeVariable left name || containsFreeVariable right name
  | .abs param body =>
    if param == name then false
    else containsFreeVariable body name

/-- Helper (not in source): the list of free variable names of a term,
used to bound the fresh-name search. -/
def freeVarNames : Expr → List String
  | .var n => [n]
  | .abs param body => (freeVarNames body).filter (fun x => x != param)
  | .app left right => freeVarNames left ++ freeVarNames right

/-- Embeds the while loop of LambdaEvaluator.generateFreshVariable with
explicit fuel; the fuel chosen below provably suffices, so the loop result
is the same name the unbounded source loop returns. -/
def genFreshAux (base : String) (exprs : List Expr) : Nat → Nat → String
  | 0, counter => base ++ natToString counter
  | fuel + 1, counter =>
    let newName := base ++ natToString counter
    if exprs.any (fun expr => containsFreeVariable expr newName) then
      genFreshAux base exprs fuel (counter + 1)
    else newName

/-- Embeds LambdaEvaluator.generateFreshVariable: appends an increasing
numeric suffix, starting at 1, until no listed expression contains the
candidate as a free variable. -/
def generateFreshVariable (base : String) (exprs : List Expr) : String :=
  genFreshAux base exprs (((exprs.map freeVarNames).join).length + 1) 1

/-- Embeds LambdaEvaluator.substitute from evaluator.ts with fuel equal to
the term size (the source recursion is not structural at the alpha-renaming
step, where the renamed body has the same size as the body). -/
def substF (rep : Expr) (param : String) : Nat → Expr → Expr
  | 0, expr => expr
  | fuel + 1, expr =>
    match expr with
    | .var name => if name == param then rep else .var name
    | .app left right => .app (substF rep param fuel left) (substF rep param fuel right)
    | .abs p body =>
      if p == param then .abs p body
      else if containsFreeVariable rep p then
        let newParam := generateFreshVariable p [.abs p body, rep]
        let newBody := substF (.var newParam) p fuel body
        .abs newParam (substF rep param fuel newBody)
      else .abs p (substF rep param fuel body)

/-- Embeds LambdaEvaluator.substitute: substitute all free occurrences of
param in expr with replacement, alpha-renaming binders to avoid capture. -/
def substitute (expr : Expr) (param : String) (replacement : Expr) : Expr :=
  substF replacement param expr.size expr

/-- Embeds LambdaEvaluator.betaReduce: one normal-order (leftmost-outermost)
beta-reduction step, returning none when no redex exists. -/
def betaReduce : Expr → Option Expr
  | .app left right =>
    match left with
    | .abs param body => some (substitute body param right)
    | _ =>
      match betaReduce left with
      | some reducedLeft => some (.app reducedLeft right)
      | none =>
        match betaReduce right with
        | some reducedRight => some (.app left reducedRight)
        | none => none
  | .abs param body =>
    match betaReduce body with
    | some reducedBody => some (.abs param reducedBody)
    | none => none
  | .var _ => none

/-- Embeds LambdaEvaluator.betaReduceApplicative: one applicative-order
(call-by-value) step.  The source's isValue test on the argument is inlined
here (isValue calls betaReduceApplicative on the same expression, so the
mutual pair is expressed with the one-level case split written out); the
lemma isValue_inline below shows the inlined test equals isValue. -/
def betaReduceApplicative : Expr → Option Expr
  | .app left right =>
    match betaReduceApplicative right with
    | some reducedRight => some (.app left reducedRight)
    | none =>
      match betaReduceApplicative left with
      | some reducedLeft => some (.app reducedLeft right)
      | none =>
        match left with
        | .abs param body =>
          if (match right with
              | .abs _ _ => true
              | .var _ => true
              | .app _ _ => (betaReduceApplicative right).isNone) then
            some (substitute body param right)
          else none
        | _ => none
  | .abs param body =>
    match betaReduceApplicative body with
    | some reducedBody => some (.abs param reducedBody)
    | none => none
  | .var _ => none

/-- Embeds LambdaEvaluator.isValue: abstractions and variables are values;
an application is a value when it has no applicative-order reduct. -/
def isValue (expr : Expr) : Bool :=
  match expr with
  | .abs _ _ => true
  | .var _ => true
  | .app _ _ => (betaReduceApplicative expr).isNone

/-- Reduction strategy selector, mirroring the union of string literals. -/
inductive Strategy where
  | normal
  | applicative

deriving DecidableEq, Repr

/-- Embeds LambdaEvaluator.reduceToNormalForm: iterate betaReduce up to
maxSteps times, returning the last term reached. -/
def reduceToNormalForm (expr : Expr) (maxSteps : Nat := 1000) : Expr :=
  match maxSteps with
  | 0 => expr
  | steps + 1 =>
    match betaReduce expr with
    | none => expr
    | some reduced => reduceToNormalForm reduced steps

/-- Loop of reduceMany: collects the successive reducts after the start term. -/
def reduceManyAux (strategy : Strategy) (current : Expr) : Nat → List Expr
  | 0 => []
  | count + 1 =>
    match (match strategy with
           | .normal => betaReduce current
           | .applicative => betaReduceApplicative current) with
    | none => []
    | some next => next :: reduceManyAux strategy next count

/-- Embeds LambdaEvaluator.reduceMany: the full reduction trace
[term, step1, step2, ...], stopping at normal form or at the step cap. -/
def reduceMany (expr : Expr) (strategy : Strategy := .normal) (maxSteps : Nat := 100) :
    List Expr :=
  expr :: reduceManyAux strategy expr maxSteps

/-- Embeds LambdaEvaluator.toString: canonical printing, parenthesizing
abstractions in function position and abstractions/applications in
argument position. -/
def exprToString : Expr → String
  | .var name => name
  | .abs param body => "λ" ++ param ++ "." ++ exprToString body
  | .app left right =>
    let l := match left with
             | .abs _ _ => "(" ++ exprToString left ++ ")"
             | _ => exprToString left
    let r := match right with
             | .app _ _ => "(" ++ exprToString right ++ ")"
             | .abs _ _ => "(" ++ exprToString right ++ ")"
             | _ => exprToString right
    l ++ " " ++ r

end LambdaEvaluator

open LambdaEvaluator in
/-- The divergent combinator Omega from the spec's example list. -/
def Omega : Expr :=
  .app (.abs "x" (.app (.var "x") (.var "x"))) (.abs "x" (.app (.var "x") (.var "x")))

/-- Helper (spec side): a term contains a beta-redex somewhere, that is an
application whose function position is an abstraction. -/
def hasRedex : Expr → Bool
  | .var _ => false
  | .abs _ body => hasRedex body
  | .app left right =>
    (match left with | .abs _ _ => true | _ => false) || hasRedex left || hasRedex right

/-! ## De Bruijn conversion (deBruijn.ts, the permissive revision)

The permissive revision tolerates free variables: toDeBruijn emits the
sentinel index -1, fromDeBruijn synthesizes placeholder names.  Indices are
JS numbers compared with signed order, so they are embedded as Int. -/

/-- JS Array.prototype.indexOf: first index of name, or -1 when absent. -/
def jsIndexOf (context : List String) (name : String) : Int :=
  match context.findIdx? (fun x => x == name) with
  | some i => (i : Int)
  | none => -1

/-- De Bruijn term with all fields present (the shape toDeBruijn produces). -/
inductive DeBruijnTerm where
  | var (index : Int)
  | lam (body : DeBruijnTerm)
  | app (left right : DeBruijnTerm)

deriving DecidableEq, Repr

namespace DeBruijn

/-- Embeds toDeBruijnWithContext from deBruijn.ts (permissive revision):
a variable missing from the context becomes the sentinel index -1. -/
def toDeBruijnWithContext : Expr → List String → DeBruijnTerm
  | .var name, context =>
    let index := jsIndexOf context name
    if index == -1 then .var (-1) else .var index
  | .abs param body, context => .lam (toDeBruijnWithContext body (param :: context))
  | .app left right, context =>
    .app (toDeBruijnWithContext left context) (toDeBruijnWithContext right context)

/-- Embeds toDeBruijn from deBruijn.ts. -/
def toDeBruijn (expr : Expr) : DeBruijnTerm := toDeBruijnWithContext expr []

/-- Embeds the while loop of generateFreshName (x0, x1, ...) with fuel;
the fuel below provably suffices for the loop to find its fresh name. -/
def findFreshXAux (context : List String) : Nat → Nat → String
  | 0, i => "x" ++ natToString i
  | fuel + 1, i =>
    if context.contains ("x" ++ natToString i) then findFreshXAux context fuel (i + 1)
    else "x" ++ natToString i

/-- Embeds generateFreshName from deBruijn.ts: try the fixed list
x,y,z,a,b,c,m,n first, then x0, x1, ... until free of the context. -/
def generateFreshName (context : List String) : String :=
  let vars := ["x", "y", "z", "a", "b", "c", "m", "n"]
  match vars.find? (fun v => !(context.contains v)) with
  | some v => v
  | none => findFreshXAux context (context.length + 1) 0

/-- Embeds fromDeBruijnWithContext from deBruijn.ts on fully-formed terms.
An index of -1 or beyond the context becomes a free_<n> placeholder; a
negative index other than -1 falls through to the JS lookup context[index],
which yields undefined (that branch is unreachable from toDeBruijn). -/
def fromDeBruijnWithContext : DeBruijnTerm → List String → Expr
  | .var index, context =>
    if index == -1 || (context.length : Int) ≤ index then
      .var ("free_" ++ (if index == -1 then natToString context.length else natToString index.toNat))
    else if 0 ≤ index then
      .var (context.getD index.toNat "")
    else
      .var "undefined"
  | .lam body, context =>
    let paramName := generateFreshName context
    .abs paramName (fromDeBruijnWithContext body (paramName :: context))
  | .app left right, context =>
    .app (fromDeBruijnWithContext left context) (fromDeBruijnWithContext right context)

/-- Embeds fromDeBruijn from deBruijn.ts. -/
def fromDeBruijn (term : DeBruijnTerm) : Expr := fromDeBruijnWithContext term []

/-- Dimensions record of calculateDimensions in deBruijn.ts. -/
structure Dimensions where
  width : Nat
  height : Nat

deriving DecidableEq, Repr

/-- Embeds calculateDimensions from deBruijn.ts: Var is one grid slot of
height 0, Lam adds one row, App places children side by side under one
connector row. -/
def calculateDimensions : DeBruijnTerm → Dimensions
  | .var _ => ⟨1, 0⟩
  | .lam body =>
    let bodyDims := calculateDimensions body
    ⟨bodyDims.width, bodyDims.height + 1⟩
  | .app left right =>
    let leftDims := calculateDimensions left
    let rightDims := calculateDimensions right
    ⟨leftDims.width + rightDims.width, max leftDims.height rightDims.height + 1⟩

/-- Helper (spec side): number of Var leaves of a de Bruijn term. -/
def countVarLeaves : DeBruijnTerm → Nat
  | .var _ => 1
  | .lam body => countVarLeaves body
  | .app left right => countVarLeaves left + countVarLeaves right

/-- De Bruijn term as the TypeScript interface really is: every child field
optional, so the defensive throw branches of the source are reachable. -/
inductive RawDeBruijnTerm where
  | var (index : Option Int)
  | lam (body : Option RawDeBruijnTerm)
  | app (left right : Option RawDeBruijnTerm)

/-- Embeds fromDeBruijnWithContext including its defensive throws on
missing fields, as an Except. -/
def fromDeBruijnRawWithContext : RawDeBruijnTerm → List String → Except String Expr
  | .var none, _ => .error "Variable missing index"
  | .var (some index), context =>
    if index == -1 || (context.length : Int) ≤ index then
      .ok (.var ("free_" ++ (if index == -1 then natToString context.length else natToString index.toNat)))
    else if 0 ≤ index then
      .ok (.var (context.getD index.toNat ""))
    else
      .ok (.var "undefined")
  | .lam none, _ => .error "Lambda term missing body"
  | .lam (some body), context =>
    let paramName := generateFreshName context
    match fromDeBruijnRawWithContext body (paramName :: context) with
    | .ok e => .ok (.abs paramName e)
    | .error msg => .error msg
  | .app none _, _ => .error "Application missing left or right term"
  | .app _ none, _ => .error "Application missing left or right term"
  | .app (some left) (some right), context =>
    match fromDeBruijnRawWithContext left context with
    | .error msg => .error msg
    | .ok l =>
      match fromDeBruijnRawWithContext right context with
      | .error msg => .error msg
      | .ok r => .ok (.app l r)

end DeBruijn

/-- Inclusion of fully-formed de Bruijn terms into the raw optional-field shape. -/
def DeBruijnTerm.toRaw : DeBruijnTerm → DeBruijn.RawDeBruijnTerm
  | .var i => .var (some i)
  | .lam b => .lam (some b.toRaw)
  | .app l r => .app (some l.toRaw) (some r.toRaw)

/-! ## Alpha equivalence (spec side, for the round-trip claim)

Two terms are alpha-equivalent when they have the same binding structure:
bound variables must point at the same binder position, free variables must
agree by name. -/

/-- Alpha equivalence under an environment of paired binders, innermost first. -/
def alphaEqCtx : Expr → Expr → List (String × String) → Bool
  | .var n1, .var n2, env =>
    match env.findIdx? (fun p => p.1 == n1), env.findIdx? (fun p => p.2 == n2) with
    | some i, some j => i == j
    | none, none => n1 == n2
    | _, _ => false
  | .abs p1 b1, .abs p2 b2, env => alphaEqCtx b1 b2 ((p1, p2) :: env)
  | .app l1 r1, .app l2 r2, env => alphaEqCtx l1 l2 env && alphaEqCtx r1 r2 env
  | _, _, _ => false

/-- Alpha equivalence of two terms. -/
def alphaEq (a b : Expr) : Bool := alphaEqCtx a b []

/-- Every variable of the term is bound by an enclosing binder or listed in
the context; with an empty context this says the term is closed. -/
def allVarsBound : Expr → List String → Bool
  | .var name, context => context.contains name
  | .abs param body, context => allVarsBound body (param :: context)
  | .app left right, context => allVarsBound left context && allVarsBound right context

namespace GridTrompGenerator

/-- Embeds GridTrompGenerator.calculateDimensions from trompDiagramGrid.ts.
Note the axes are flipped relative to calculateDimensions in deBruijn.ts:
a Var contributes height, a Lam adds width, an App stacks heights. -/
def calculateDimensions : DeBruijnTerm → DeBruijn.Dimensions
  | .var _ => ⟨0, 1⟩
  | .lam body =>
    let bodyDims := calculateDimensions body
    ⟨bodyDims.width + 1, bodyDims.height⟩
  | .app left right =>
    let leftDims := calculateDimensions left
    let rightDims := calculateDimensions right
    ⟨max leftDims.width rightDims.width + 1, leftDims.height + rightDims.height⟩

end GridTrompGenerator

namespace LambdaCalculus

/-- Embeds substitute from lambdaCalculus.ts (the legacy revision): plain
structural substitution with shadowing, and no alpha-renaming at all. -/
def substitute : Expr → String → Expr → Expr
  | .var name, varName, replacement =>
    if name == varName then replacement else .var name
  | .abs param body, varName, replacement =>
    if param == varName then .abs param body
    else .abs param (substitute body varName replacement)
  | .app func arg, varName, replacement =>
    .app (substitute func varName replacement) (substitute arg varName replacement)

end LambdaCalculus

/-! ## Grid Tromp diagram generator (trompDiagramGrid.ts) -/

/-- Decimal rendering of a JS number that may be negative (template
interpolation of an Int). -/
def intToString (i : Int) : String :=
  if i < 0 then "-" ++ natToString (-i).toNat else natToString i.toNat

/-- A JS number that may be NaN (the result of arithmetic on undefined). -/
inductive JSNum where
  | num (q : Rat)
  | nan

deriving DecidableEq, Repr

/-- Tests the NaN marker. -/
def JSNum.isNan : JSNum → Bool
  | .nan => true
  | .num _ => false

/-- The three node and link kinds of both diagram generators. -/
inductive NodeKind where
  | abstraction
  | variable
  | application

deriving DecidableEq, Repr

/-- Node of the grid-based Tromp diagram (GridNode in trompDiagramGrid.ts);
optional fields not assigned by the source are none. -/
structure GridNode where
  id : String
  type : NodeKind
  x : Rat
  y : Rat
  width : Rat
  height : Rat
  binderIndex : Option Nat
  varName : Option String

deriving DecidableEq, Repr

/-- Link of the grid-based Tromp diagram (GridLink in trompDiagramGrid.ts).
Point coordinates can be NaN when the source multiplies undefined. -/
structure GridLink where
  id : String
  type : NodeKind
  points : List (JSNum × JSNum)

deriving DecidableEq, Repr

/-- The complete grid diagram (TrompGrid in trompDiagramGrid.ts). -/
structure TrompGrid where
  nodes : List GridNode
  links : List GridLink
  width : Rat
  height : Rat

deriving DecidableEq, Repr

/-- Style selector of TrompDiagramOptions. -/
inductive DiagramStyle where
  | classic
  | minimal
  | colored

deriving DecidableEq, Repr

/-- Options record of trompDiagramGrid.ts. -/
structure TrompDiagramOptions where
  style : DiagramStyle
  showVariableNames : Bool
  showNodeLabels : Bool

deriving DecidableEq, Repr

/-- The mutable instance fields of GridTrompGenerator (both counters). -/
structure GridGenState where
  nodeCounter : Nat
  linkCounter : Nat

deriving DecidableEq, Repr

/-- JS array indexing with a possibly negative index: undefined is none. -/
def jsArrayGetNat (l : List Nat) (i : Int) : Option Nat :=
  if 0 ≤ i then l[i.toNat]? else none

namespace GridTrompGenerator

/-- The base grid unit of GridTrompGenerator. -/
def gridSize : Rat := 35

/-- Result of one generateVisual call: the grown node and link arrays, the
updated counters, and the returned width and lastNodeId. -/
structure VisualResult where
  nodes : List GridNode
  links : List GridLink
  state : GridGenState
  width : Nat
  lastNodeId : String

/-- Embeds GridTrompGenerator.generateVisual from trompDiagramGrid.ts.
Array pushes become appends; the instance counters are threaded as state.
Note the source checks term.index < binders.length with JS signed
comparison, so the sentinel index -1 passes the check whenever the binder
stack is non-empty and then reads binders[-1], which is undefined. -/
def generateVisual (term : DeBruijnTerm) (x y : Nat) (binders : List Nat)
    (nodes : List GridNode) (links : List GridLink)
    (originalExpr : Expr) (options : TrompDiagramOptions)
    (st : GridGenState) : VisualResult :=
  match term with
  | .var index =>
    let nodeId := "node_" ++ natToString st.nodeCounter
    let st1 : GridGenState := { st with nodeCounter := st.nodeCounter + 1 }
    let varX : Rat := (y : Rat) * gridSize
    let varY : Rat := (x : Rat) * gridSize
    let varName : Option String :=
      if options.showVariableNames then
        some (if index < (binders.length : Int) then "x" ++ intToString index else "free")
      else none
    let node : GridNode :=
      { id := nodeId, type := .variable, x := varX, y := varY,
        width := gridSize, height := gridSize,
        binderIndex := if index < (binders.length : Int) then jsArrayGetNat binders index else none,
        varName := if options.showVariableNames then varName else none }
    let nodes1 := nodes ++ [node]
    if index < (binders.length : Int) then
      let binderId := jsArrayGetNat binders index
      let link : GridLink :=
        { id := "link_" ++ natToString st1.linkCounter, type := .variable,
          points := [(JSNum.num varX, JSNum.num (varY + gridSize / 2)),
                     (match binderId with
                      | some b => JSNum.num ((b : Rat) * gridSize)
                      | none => JSNum.nan, JSNum.num (varY + gridSize / 2))] }
      { nodes := nodes1, links := links ++ [link],
        state := { st1 with linkCounter := st1.linkCounter + 1 },
        width := 1, lastNodeId := nodeId }
    else
      { nodes := nodes1, links := links, state := st1, width := 1, lastNodeId := nodeId }
  | .lam body =>
    let nodeId := "node_" ++ natToString st.nodeCounter
    let st1 : GridGenState := { st with nodeCounter := st.nodeCounter + 1 }
    let lamX : Rat := (y : Rat) * gridSize
    let lamY : Rat := (x : Rat) * gridSize
    let newBinders := y :: binders
    let node : GridNode :=
      { id := nodeId, type := .abstraction, x := lamX, y := lamY,
        width := gridSize, height := gridSize, binderIndex := none, varName := none }
    let res := generateVisual body x (y + 1) newBinders (nodes ++ [node]) links
      originalExpr options st1
    let link : GridLink :=
      { id := "link_" ++ natToString res.state.linkCounter, type := .abstraction,
        points := [(JSNum.num lamX, JSNum.num lamY),
                   (JSNum.num lamX, JSNum.num (lamY + (res.width : Rat) * gridSize))] }
    { nodes := res.nodes, links := res.links ++ [link],
      state := { res.state with linkCounter := res.state.linkCounter + 1 },
      width := res.width, lastNodeId := nodeId }
  | .app left right =>
    let appX : Rat := (y : Rat) * gridSize
    let appY : Rat := (x : Rat) * gridSize
    let leftDims := calculateDimensions left
    let rightDims := calculateDimensions right
    let resRight := generateVisual right (x + leftDims.width) (y + 1) binders nodes links
      originalExpr options st
    let resLeft := generateVisual left x (y + 1) binders resRight.nodes resRight.links
      originalExpr options resRight.state
    let link : GridLink :=
      { id := "link_" ++ natToString resLeft.state.linkCounter, type := .application,
        points := [(JSNum.num (appX + gridSize / 2), JSNum.num (appY + gridSize / 2)),
                   (JSNum.num (appX + gridSize / 2),
                    JSNum.num (appY + (resLeft.width : Rat) * gridSize + gridSize / 2))] }
    { nodes := resLeft.nodes, links := resLeft.links ++ [link],
      state := { resLeft.state with linkCounter := resLeft.state.linkCounter + 1 },
      width := resLeft.width + resRight.width, lastNodeId := resLeft.lastNodeId }

/-- Embeds GridTrompGenerator.generateGrid: resets both counters, converts
to de Bruijn form (permissive revision), generates the visual elements, and
returns the grid with swapped overall width and height. -/
def generateGrid (st : GridGenState) (expr : Expr)
    (options : TrompDiagramOptions :=
      { style := .classic, showVariableNames := true, showNodeLabels := true }) :
    TrompGrid × GridGenState :=
  let st0 : GridGenState := { st with nodeCounter := 0, linkCounter := 0 }
  let deBruijnTerm := DeBruijn.toDeBruijn expr
  let dims := calculateDimensions deBruijnTerm
  let res := generateVisual deBruijnTerm 0 0 [] [] [] expr options st0
  ({ nodes := res.nodes, links := res.links,
     height := (dims.width : Rat) * gridSize + gridSize * 4,
     width := (dims.height : Rat) * gridSize + gridSize * 4 }, res.state)

end GridTrompGenerator

/-- The number of variable-typed binder links generateVisual emits: one per
Var leaf whose index passes the JS signed comparison index < stack length
(so the sentinel -1 is counted whenever the stack is non-empty). -/
def varLinkCountJS : DeBruijnTerm → Nat → Nat
  | .var index, stackLen => if index < (stackLen : Int) then 1 else 0
  | .lam body, stackLen => varLinkCountJS body (stackLen + 1)
  | .app left right, stackLen => varLinkCountJS left stackLen + varLinkCountJS right stackLen

/-! ## Classic Tromp diagram generator (trompDiagram.ts) -/

/-- Node of the classic Tromp diagram (TrompNode in trompDiagram.ts); the
optional width and height fields are never assigned by this generator and
are omitted. -/
structure TrompNode where
  id : String
  type : NodeKind
  x : Rat
  y : Rat
  param : Option String
  varName : Option String
  binderId : Option String
  depth : Option Nat

deriving DecidableEq, Repr

/-- Link of the classic Tromp diagram (TrompLink in trompDiagram.ts). -/
structure TrompLink where
  id : String
  type : NodeKind
  x1 : Rat
  y1 : Rat
  x2 : Rat
  y2 : Rat

deriving DecidableEq, Repr

/-- The complete classic diagram (TrompDiagram in trompDiagram.ts). -/
structure TrompDiagram where
  nodes : List TrompNode
  links : List TrompLink
  width : Rat
  height : Rat
  alternativeStyle : Bool

deriving DecidableEq, Repr

/-- JS Map.get: the stored value for a key, if present. -/
def mapGet {α : Type} (m : List (String × α)) (k : String) : Option α :=
  (m.find? (fun p => p.1 == k)).map (fun p => p.2)

/-- JS Map.set: store a value for a key, replacing any previous binding. -/
def mapSet {α : Type} (m : List (String × α)) (k : String) (v : α) : List (String × α) :=
  (k, v) :: m.filter (fun p => p.1 != k)

/-- JS Map.delete: remove a key. -/
def mapDelete {α : Type} (m : List (String × α)) (k : String) : List (String × α) :=
  m.filter (fun p => p.1 != k)

/-- The mutable instance fields of TrompDiagramGenerator. -/
structure TDState where
  nodeCounter : Nat
  linkCounter : Nat
  nodes : List TrompNode
  links : List TrompLink
  variableBindings : List (String × String)
  variablePositions : List (String × (Rat × Rat))
  maxDepth : Nat
  alternativeStyle : Bool

namespace TrompDiagramGenerator

/-- The base grid unit of TrompDiagramGenerator. -/
def gridSize : Rat := 35

/-- Horizontal spacing constant (5.5 grid units). -/
def horizontalSpacing : Rat := 5.5 * gridSize

/-- Vertical spacing constant (3.5 grid units). -/
def verticalSpacing : Rat := 3.5 * gridSize

/-- Embeds TrompDiagramGenerator.analyzeExpression: walks the expression
computing variable counts and the maximum depth seen (threaded in place of
the mutable this.maxDepth).  Returns (varCount, maxDepth-result, new
maxDepth state). -/
def analyzeExpression : Expr → Nat → Nat → Nat → Nat × Nat × Nat
  | .var _, depth, _, md => (1, depth, max md depth)
  | .abs _ body, depth, varIndex, md =>
    let (vc, m, md1) := analyzeExpression body (depth + 1) varIndex (max md depth)
    (vc, m, md1)
  | .app left right, depth, varIndex, md =>
    let md0 := max md depth
    let (vcl, ml, md1) := analyzeExpression left (depth + 1) varIndex md0
    let (vcr, mr, md2) := analyzeExpression right (depth + 1) (varIndex + vcl) md1
    (vcl + vcr, max ml mr, md2)

/-- Embeds TrompDiagramGenerator.generateNodes: emits nodes and links into
the threaded state, returning (width, lastVarX, state).  JS floats here are
exact multiples of 0.5 grid units except the 0.8 offset of application
links, which a binary double rounds; the rational embedding keeps the exact
value, which affects no compared quantity. -/
def generateNodes : Expr → Nat → Rat → TDState → Rat × Rat × TDState
  | .var name, depth, xOffset, s =>
    let nodeId := "node_" ++ natToString s.nodeCounter
    let x := xOffset
    let y := (depth : Rat) * verticalSpacing
    let node : TrompNode :=
      { id := nodeId, type := .variable, x := x, y := y, param := none,
        varName := some name, binderId := mapGet s.variableBindings name,
        depth := some depth }
    let s1 : TDState :=
      { s with nodeCounter := s.nodeCounter + 1, nodes := s.nodes ++ [node] }
    let s2 : TDState :=
      match mapGet s.variableBindings name with
      | some binderId =>
        match s1.nodes.find? (fun n => n.id == binderId) with
        | some binderNode =>
          let link : TrompLink :=
            { id := "link_" ++ natToString s1.linkCounter, type := .variable,
              x1 := x, y1 := binderNode.y, x2 := x, y2 := y }
          { s1 with linkCounter := s1.linkCounter + 1, links := s1.links ++ [link] }
        | none => s1
      | none => s1
    let s3 : TDState :=
      { s2 with variablePositions := mapSet s2.variablePositions nodeId (x, y) }
    (horizontalSpacing, x, s3)
  | .abs param body, depth, xOffset, s =>
    let nodeId := "node_" ++ natToString s.nodeCounter
    let x := xOffset
    let y := (depth : Rat) * verticalSpacing
    let oldBinding := mapGet s.variableBindings param
    let node : TrompNode :=
      { id := nodeId, type := .abstraction, x := x, y := y, param := some param,
        varName := none, binderId := none, depth := some depth }
    let s1 : TDState :=
      { s with nodeCounter := s.nodeCounter + 1, variableBindings := mapSet s.variableBindings param nodeId, nodes := s.nodes ++ [node] }
    let (bodyWidth, lastVarX, s2) := generateNodes body (depth + 1) xOffset s1
    let link : TrompLink :=
      { id := "link_" ++ natToString s2.linkCounter, type := .abstraction,
        x1 := x, y1 := y, x2 := x + bodyWidth, y2 := y }
    let s3 : TDState :=
      { s2 with linkCounter := s2.linkCounter + 1, links := s2.links ++ [link] }
    let restoredBindings :=
      match oldBinding with
      | some ob => mapSet s3.variableBindings param ob
      | none => mapDelete s3.variableBindings param
    let s4 : TDState := { s3 with variableBindings := restoredBindings }
    (bodyWidth, lastVarX, s4)
  | .app left right, depth, xOffset, s =>
    let (leftWidth, leftLastVarX, s1) := generateNodes left depth xOffset s
    let (rightWidth, rightLastVarX, s2) := generateNodes right depth (xOffset + leftWidth) s1
    let link : TrompLink :=
      if s2.alternativeStyle then
        { id := "link_" ++ natToString s2.linkCounter, type := .application,
          x1 := leftLastVarX, y1 := (depth : Rat) * verticalSpacing + gridSize * 0.8,
          x2 := xOffset + leftWidth, y2 := (depth : Rat) * verticalSpacing + gridSize * 0.8 }
      else
        { id := "link_" ++ natToString s2.linkCounter, type := .application,
          x1 := xOffset, y1 := (depth : Rat) * verticalSpacing + gridSize * 0.8,
          x2 := xOffset + leftWidth, y2 := (depth : Rat) * verticalSpacing + gridSize * 0.8 }
    let s3 : TDState :=
      { s2 with linkCounter := s2.linkCounter + 1, links := s2.links ++ [link] }
    (leftWidth + rightWidth, rightLastVarX, s3)

/-- Embeds TrompDiagramGenerator.calculateWidth.  JS Math.max over an empty
spread is -Infinity, absorbed by the other operand, which the max?-match
reproduces. -/
def calculateWidth (s : TDState) : Rat :=
  if s.nodes.length == 0 then 0
  else
    let maxX := ((s.nodes.map (fun n => n.x)).max?).getD 0
    let maxWidth :=
      ((s.links.filter (fun l => l.type == NodeKind.abstraction)).map (fun l => l.x2)).max?
    (match maxWidth with
     | some m => max maxX m
     | none => maxX) + gridSize * 3

/-- Embeds TrompDiagramGenerator.calculateHeight. -/
def calculateHeight (s : TDState) : Rat :=
  ((s.maxDepth + 1 : Nat) : Rat) * verticalSpacing + gridSize * 3

/-- Embeds TrompDiagramGenerator.generateDiagram: resets every instance
field, analyzes the expression for maxDepth, generates nodes and links, and
assembles the diagram. -/
def generateDiagram (s : TDState) (expr : Expr) (alternativeStyle : Bool := false) :
    TrompDiagram × TDState :=
  let s0 : TDState :=
    { nodeCounter := 0, linkCounter := 0, nodes := [], links := [],
      variableBindings := [], variablePositions := [], maxDepth := 0,
      alternativeStyle := alternativeStyle }
  let (_vc, _m, maxDepth1) := analyzeExpression expr 0 0 s0.maxDepth
  let s1 : TDState := { s0 with maxDepth := maxDepth1 }
  let (_w, _lx, s2) := generateNodes expr 0 0 s1
  let width := calculateWidth s2
  let height := calculateHeight s2
  ({ nodes := s2.nodes, links := s2.links, width := width, height := height,
     alternativeStyle := alternativeStyle }, s2)

end TrompDiagramGenerator

namespace LambdaParser

/-! ## Surface-syntax parser (LambdaParser in trompDiagram.ts)

The recursive-descent parser is embedded over the remaining input as a
character list (the source tracks a position into the string, which is
equivalent); the general recursion is totalized with fuel, and the
round-trip proof shows the chosen budget always suffices on printed
output.  Errors keep the source's throw messages, minus position info. -/

/-- The JS regex \s test, restricted to the whitespace characters that can
occur here (the printer only ever emits a space). -/
def isWhitespaceChar (c : Char) : Bool :=
  c == ' ' || c == '\t' || c == '\n' || c == '\r'

/-- Embeds LambdaParser.isValidVarChar: the regex [a-zA-Z0-9_]. -/
def isValidVarChar (c : Char) : Bool :=
  ('a' ≤ c && c ≤ 'z') || ('A' ≤ c && c ≤ 'Z') || ('0' ≤ c && c ≤ '9') || c == '_'

/-- Embeds LambdaParser.skipWhitespace. -/
def skipWhitespace (s : List Char) : List Char := s.dropWhile isWhitespaceChar

/-- Embeds LambdaParser.parseVariableName: the maximal run of valid
variable characters and the remaining input. -/
def parseVariableName (s : List Char) : String × List Char :=
  (String.mk (s.takeWhile isValidVarChar), s.dropWhile isValidVarChar)

/-- JS String.prototype.trim. -/
def jsTrim (s : List Char) : List Char :=
  ((s.dropWhile isWhitespaceChar).reverse.dropWhile isWhitespaceChar).reverse

end LambdaParser

deriving instance DecidableEq for Except

namespace LambdaParser

mutual

/-- Embeds LambdaParser.parseExpr: lambda abstraction or application. -/
def parseExpr : Nat → List Char → Except String (Expr × List Char)
  | 0, _ => .error "out of fuel"
  | fuel + 1, s =>
    let s1 := skipWhitespace s
    if s1.head? == some '\\' || s1.head? == some 'λ' then
      parseAbstraction fuel s1.tail
    else
      parseApplication fuel s1

/-- Embeds LambdaParser.parseAbstraction (the lambda symbol has already
been consumed): parameter, dot, body. -/
def parseAbstraction : Nat → List Char → Except String (Expr × List Char)
  | 0, _ => .error "out of fuel"
  | fuel + 1, s =>
    let s1 := skipWhitespace s
    match s1.head? with
    | none => .error "Expected variable name"
    | some c =>
      if isValidVarChar c then
        let (param, s2) := parseVariableName s1
        let s3 := skipWhitespace s2
        match s3.head? with
        | some d =>
          if d == '.' then
            match parseExpr fuel s3.tail with
            | .error msg => .error msg
            | .ok (body, s4) => .ok (.abs param body, s4)
          else .error "Expected dot after parameter"
        | none => .error "Expected dot after parameter"
      else .error "Expected variable name"

/-- Embeds LambdaParser.parseApplication: one atom, then the while loop
collecting further atoms left-associatively. -/
def parseApplication : Nat → List Char → Except String (Expr × List Char)
  | 0, _ => .error "out of fuel"
  | fuel + 1, s =>
    match parseAtom fuel s with
    | .error msg => .error msg
    | .ok (left, s1) => parseAppLoop fuel left (skipWhitespace s1)

/-- The while loop of parseApplication; its input always has leading
whitespace already skipped, matching the source's position state. -/
def parseAppLoop : Nat → Expr → List Char → Except String (Expr × List Char)
  | 0, _, _ => .error "out of fuel"
  | fuel + 1, left, s =>
    match s.head? with
    | none => .ok (left, s)
    | some c =>
      if c == ')' || c == '.' then .ok (left, s)
      else
        match parseAtom fuel s with
        | .error msg => .error msg
        | .ok (right, s1) => parseAppLoop fuel (.app left right) (skipWhitespace s1)

/-- Embeds LambdaParser.parseAtom: parenthesized expression or variable. -/
def parseAtom : Nat → List Char → Except String (Expr × List Char)
  | 0, _ => .error "out of fuel"
  | fuel + 1, s =>
    let s1 := skipWhitespace s
    match s1.head? with
    | none => .error "Unexpected character"
    | some c =>
      if c == '(' then
        match parseExpr fuel s1.tail with
        | .error msg => .error msg
        | .ok (e, s2) =>
          let s3 := skipWhitespace s2
          match s3.head? with
          | some d => if d == ')' then .ok (e, s3.tail) else .error "Expected closing paren"
          | none => .error "Expected closing paren"
      else if isValidVarChar c then
        let (name, s2) := parseVariableName s1
        .ok (.var name, s2)
      else .error "Unexpected character"

end

/-- Embeds LambdaParser.parse: trim, parse an expression, and demand the
rest is at most whitespace.  The fuel 8 * length + 8 provably suffices (the
source's recursion needs no fuel; this budget exceeds its depth). -/
def parse (input : String) : Except String Expr :=
  let s := jsTrim input.data
  match parseExpr (8 * s.length + 8) s with
  | .error msg => .error msg
  | .ok (expr, rest) =>
    if (skipWhitespace rest).isEmpty then .ok expr
    else .error "Unexpected character after expression"

end LambdaParser

/-! ## Printer/parser round trip -/

/-- Character-level form of LambdaEvaluator.toString (the String printer
below data). -/
def tsL : Expr → List Char
  | .var name => name.data
  | .abs param body => 'λ' :: (param.data ++ ('.' :: tsL body))
  | .app left right =>
    (match left with
     | .abs _ _ => '(' :: (tsL left ++ [')'])
     | _ => tsL left) ++
    (' ' :: (match right with
             | .app _ _ => '(' :: (tsL right ++ [')'])
             | .abs _ _ => '(' :: (tsL right ++ [')'])
             | _ => tsL right))

/-- How a term prints in argument position: variables bare, anything else
parenthesized (matching the printer's parenthesization). -/
def paL : Expr → List Char
  | .var name => name.data
  | t => '(' :: (tsL t ++ [')'])

/-- The printed argument list of an application spine: a space before each
argument's atom form. -/
def argsStr (args : List Expr) : List Char :=
  (args.map (fun a => ' ' :: paL a)).join

/-- A name the parser can re-read: nonempty and all characters from the
variable-character class. -/
def validName (s : String) : Bool :=
  !s.data.isEmpty && s.data.all LambdaParser.isValidVarChar

/-- Every variable name and abstraction parameter in the term is valid. -/
def wfNames : Expr → Bool
  | .var name => validName name
  | .abs param body => validName param && wfNames body
  | .app left right => wfNames left && wfNames right

/-- Head of the application spine. -/
def spineHead : Expr → Expr
  | .app left _ => spineHead left
  | t => t

/-- Arguments of the application spine, leftmost first. -/
def spineArgs : Expr → List Expr
  | .app left right => spineArgs left ++ [right]
  | _ => []

/-- The continuation after a printed expression: nothing, a closing paren,
or the dot terminator (the two characters the application loop stops at). -/
def RestOk (rest : List Char) : Prop :=
  rest = [] ∨ rest.head? = some ')' ∨ rest.head? = some '.'

/-- The continuation after a printed atom: the next character, if any, must
not extend a variable name. -/
def AtomRestOk (rest : List Char) : Prop :=
  ∀ c, rest.head? = some c → LambdaParser.isValidVarChar c = false

/-- Fuel needed by parseAtom on a printed atom: a variable atom returns
after one step, a parenthesized atom re-enters parseExpr. -/
def atomFuelNeed : Expr → Nat
  | .var _ => 2
  | t => 6 * t.size + 1

/-! ## Lemmas and claim theorems -/

theorem decimalDigitsAux_irrel : ∀ n f g, n < f → n < g →
    decimalDigitsAux f n = decimalDigitsAux g n := by
  intro n
  induction n using Nat.strong_induction_on with
  | _ n ih =>
    intro f g hf hg
    match f, g with
    | f + 1, g + 1 =>
      simp only [decimalDigitsAux]
      by_cases h10 : n < 10
      · simp [h10]
      · simp only [h10, if_false]
        have hdiv : n / 10 < n := Nat.div_lt_self (by omega) (by omega)
        rw [ih (n / 10) hdiv f g (by omega) (by omega)]

theorem digitVal_digitChar (k : Nat) (h : k < 10) : (Nat.digitChar k).toNat - 48 = k := by
  interval_cases k <;> decide

theorem natFromDigits_append_singleton (l : List Char) (c : Char) :
    natFromDigits (l ++ [c]) = 10 * natFromDigits l + (c.toNat - 48) := by
  simp [natFromDigits, List.foldl_append]

theorem natFromDigits_decimal : ∀ n, natFromDigits (decimalDigitsAux (n + 1) n) = n := by
  intro n
  induction n using Nat.strong_induction_on with
  | _ n ih =>
    by_cases h10 : n < 10
    · simp only [decimalDigitsAux, h10, if_true]
      have : natFromDigits [Nat.digitChar n] = (Nat.digitChar n).toNat - 48 := by
        simp [natFromDigits]
      rw [this, digitVal_digitChar n h10]
    · have hdiv : n / 10 < n := Nat.div_lt_self (by omega) (by omega)
      simp only [decimalDigitsAux, h10, if_false]
      rw [decimalDigitsAux_irrel (n / 10) n (n / 10 + 1) (by omega) (by omega)]
      rw [natFromDigits_append_singleton, ih (n / 10) hdiv,
        digitVal_digitChar (n % 10) (by omega)]
      omega

theorem natToString_injective : Function.Injective natToString := by
  intro a b h
  have : (natToString a).data = (natToString b).data := by rw [h]
  simp only [natToString] at this
  have ha := natFromDigits_decimal a
  have hb := natFromDigits_decimal b
  rw [this] at ha
  omega

theorem decimalDigitsAux_ne_nil (n : Nat) : decimalDigitsAux (n + 1) n ≠ [] := by
  simp only [decimalDigitsAux]
  by_cases h10 : n < 10 <;> simp [h10]

theorem natToString_length_pos (n : Nat) : 0 < (natToString n).length := by
  have := decimalDigitsAux_ne_nil n
  simp only [natToString, String.length]
  cases hd : decimalDigitsAux (n + 1) n with
  | nil => exact absurd hd this
  | cons c l => simp

theorem string_append_natToString_injective (base : String) :
    Function.Injective (fun k => base ++ natToString k) := by
  intro a b h
  have h' : base ++ natToString a = base ++ natToString b := h
  have hd : (base ++ natToString a).data = (base ++ natToString b).data := by rw [h']
  simp only [String.data_append] at hd
  have hd2 := List.append_cancel_left hd
  simp only [natToString] at hd2
  have ha := natFromDigits_decimal a
  have hb := natFromDigits_decimal b
  rw [hd2] at ha
  omega

theorem append_natToString_ne_base (base : String) (k : Nat) :
    base ++ natToString k ≠ base := by
  intro h
  have : (base ++ natToString k).length = base.length := by rw [h]
  rw [String.length_append] at this
  have := natToString_length_pos k
  omega

theorem Expr.size_pos (e : Expr) : 0 < e.size := by
  cases e <;> simp [Expr.size]

namespace LambdaEvaluator

theorem mem_freeVarNames_of_contains (e : Expr) (name : String)
    (h : containsFreeVariable e name = true) : name ∈ freeVarNames e := by
  induction e with
  | var n =>
    simp only [containsFreeVariable, beq_iff_eq] at h
    simp [freeVarNames, h]
  | abs param body ih =>
    simp only [containsFreeVariable] at h
    by_cases hp : param = name
    · subst hp
      simp at h
    · rw [if_neg (by simpa using hp)] at h
      simp only [freeVarNames, List.mem_filter]
      refine ⟨ih h, ?_⟩
      simp only [bne_iff_ne, ne_eq]
      exact fun hc => hp hc.symm
  | app left right ihl ihr =>
    simp only [containsFreeVariable, Bool.or_eq_true] at h
    simp only [freeVarNames, List.mem_append]
    rcases h with h | h
    · exact Or.inl (ihl h)
    · exact Or.inr (ihr h)

theorem genFreshAux_spec (base : String) (exprs : List Expr) :
    ∀ fuel counter,
      (∃ k, k < fuel ∧
        exprs.any (fun e => containsFreeVariable e (base ++ natToString (counter + k))) = false) →
      exprs.any (fun e => containsFreeVariable e (genFreshAux base exprs fuel counter)) = false := by
  intro fuel
  induction fuel with
  | zero =>
    intro counter ⟨k, hk, _⟩
    omega
  | succ fuel ih =>
    intro counter ⟨k, hk, hfresh⟩
    simp only [genFreshAux]
    cases hb : exprs.any (fun expr => containsFreeVariable expr (base ++ natToString counter)) with
    | false => simpa using hb
    | true =>
      simp only [if_true]
      apply ih
      match k with
      | 0 =>
        rw [Nat.add_zero] at hfresh
        rw [hfresh] at hb
        exact absurd hb (by simp)
      | k + 1 =>
        exact ⟨k, by omega, by rw [show counter + 1 + k = counter + (k + 1) by omega]; exact hfresh⟩

theorem exists_fresh_index (f : Nat → String) (hf : Function.Injective f) (L : List String) :
    ∃ k, k ≤ L.length ∧ f k ∉ L := by
  by_contra h
  push_neg at h
  have hsub : (Finset.range (L.length + 1)).image f ⊆ L.toFinset := by
    intro x hx
    simp only [Finset.mem_image, Finset.mem_range] at hx
    obtain ⟨k, hk, rfl⟩ := hx
    exact List.mem_toFinset.mpr (h k (by omega))
  have hcard := Finset.card_le_card hsub
  rw [Finset.card_image_of_injective _ hf, Finset.card_range] at hcard
  have := List.toFinset_card_le L
  omega

theorem generateFreshVariable_fresh (base : String) (exprs : List Expr) :
    ∀ e ∈ exprs, containsFreeVariable e (generateFreshVariable base exprs) = false := by
  have hinj : Function.Injective (fun k => base ++ natToString (1 + k)) := by
    intro a b h
    have := string_append_natToString_injective base h
    omega
  obtain ⟨k, hk, hfree⟩ :=
    exists_fresh_index (fun k => base ++ natToString (1 + k)) hinj
      ((exprs.map freeVarNames).join)
  have hany : exprs.any
      (fun e => containsFreeVariable e (base ++ natToString (1 + k))) = false := by
    rw [List.any_eq_false]
    intro e he
    intro hcontains
    apply hfree
    simp only [List.mem_join]
    exact ⟨freeVarNames e, List.mem_map_of_mem freeVarNames he,
      mem_freeVarNames_of_contains e _ (by simpa using hcontains)⟩
  have hspec := genFreshAux_spec base exprs (((exprs.map freeVarNames).join).length + 1) 1
    ⟨k, by omega, hany⟩
  rw [List.any_eq_false] at hspec
  intro e he
  have h2 := hspec e he
  simpa [generateFreshVariable] using h2

theorem genFreshAux_shape (base : String) (exprs : List Expr) :
    ∀ fuel counter, ∃ c, counter ≤ c ∧ genFreshAux base exprs fuel counter = base ++ natToString c := by
  intro fuel
  induction fuel with
  | zero => intro counter; exact ⟨counter, le_refl _, rfl⟩
  | succ fuel ih =>
    intro counter
    simp only [genFreshAux]
    cases hb : exprs.any (fun expr => containsFreeVariable expr (base ++ natToString counter)) with
    | false => exact ⟨counter, le_refl _, rfl⟩
    | true =>
      obtain ⟨c, hc, heq⟩ := ih (counter + 1)
      exact ⟨c, by omega, heq⟩

theorem generateFreshVariable_ne_base (base : String) (exprs : List Expr) :
    generateFreshVariable base exprs ≠ base := by
  obtain ⟨c, _, heq⟩ := genFreshAux_shape base exprs
    (((exprs.map freeVarNames).join).length + 1) 1
  rw [generateFreshVariable, heq]
  exact append_natToString_ne_base base c

theorem substF_var_size : ∀ n e, e.size ≤ n → ∀ fuel q w, e.size ≤ fuel →
    (substF (.var w) q fuel e).size = e.size := by
  intro n
  induction n using Nat.strong_induction_on with
  | _ n ih =>
    intro e he fuel q w hfuel
    match fuel with
    | 0 =>
      have := e.size_pos
      omega
    | fuel + 1 =>
      match e with
      | .var name =>
        simp only [substF]
        by_cases h : name == q <;> simp [h, Expr.size]
      | .app left right =>
        have hl : left.size ≤ n - 1 := by simp [Expr.size] at he ⊢; omega
        have hr : right.size ≤ n - 1 := by simp [Expr.size] at he ⊢; omega
        have hn : n - 1 < n := by
          have := left.size_pos
          simp [Expr.size] at he
          omega
        simp only [substF, Expr.size]
        rw [ih (n - 1) hn left hl fuel q w (by simp [Expr.size] at hfuel; omega),
          ih (n - 1) hn right hr fuel q w (by simp [Expr.size] at hfuel; omega)]
      | .abs p body =>
        have hb : body.size ≤ n - 1 := by simp [Expr.size] at he ⊢; omega
        have hn : n - 1 < n := by
          have := body.size_pos
          simp [Expr.size] at he
          omega
        have hbf : body.size ≤ fuel := by simp [Expr.size] at hfuel; omega
        simp only [substF]
        by_cases h1 : p == q
        · simp [h1, Expr.size]
        · simp only [h1, if_false]
          by_cases h2 : containsFreeVariable (.var w) p
          · simp only [h2, if_true, Expr.size]
            have hren := ih (n - 1) hn body hb fuel p
              (generateFreshVariable p [.abs p body, .var w]) hbf
            rw [ih (n - 1) hn _ (by rw [hren]; exact hb) fuel q w (by rw [hren]; exact hbf)]
            rw [hren]
          · simp only [h2, if_false, Expr.size]
            rw [ih (n - 1) hn body hb fuel q w hbf]

theorem isValue_inline (right : Expr) :
    (match right with
     | .abs _ _ => true
     | .var _ => true
     | .app _ _ => (betaReduceApplicative right).isNone) = isValue right := by
  cases right <;> rfl

end LambdaEvaluator

namespace ClaimProofs

open LambdaEvaluator

/-- C3: reduceMany on Omega with maxSteps 50 under normal order returns
exactly 51 terms, each syntactically identical to Omega, and betaReduce on
the final element is still some (Omega is still reducible). -/
theorem omega_divergence_trace :
    reduceMany Omega .normal 50 = List.replicate 51 Omega ∧
    betaReduce ((reduceMany Omega .normal 50).getLastD Omega) ≠ none := by
  decide

/-- C4: on (λx.λy.x) a ((λz.z) b), normal order reaches the variable a in
exactly 2 steps, applicative order reaches it in exactly 3 steps (reducing
the argument (λz.z) b to b first), and both strategies end at the same
final term a. -/
theorem strategy_agreement_example :
    reduceMany (.app (.app (.abs "x" (.abs "y" (.var "x"))) (.var "a"))
        (.app (.abs "z" (.var "z")) (.var "b"))) .normal 100 =
      [.app (.app (.abs "x" (.abs "y" (.var "x"))) (.var "a"))
          (.app (.abs "z" (.var "z")) (.var "b")),
       .app (.abs "y" (.var "a")) (.app (.abs "z" (.var "z")) (.var "b")),
       .var "a"] ∧
    reduceMany (.app (.app (.abs "x" (.abs "y" (.var "x"))) (.var "a"))
        (.app (.abs "z" (.var "z")) (.var "b"))) .applicative 100 =
      [.app (.app (.abs "x" (.abs "y" (.var "x"))) (.var "a"))
          (.app (.abs "z" (.var "z")) (.var "b")),
       .app (.app (.abs "x" (.abs "y" (.var "x"))) (.var "a")) (.var "b"),
       .app (.abs "y" (.var "a")) (.var "b"),
       .var "a"] ∧
    (reduceMany (.app (.app (.abs "x" (.abs "y" (.var "x"))) (.var "a"))
        (.app (.abs "z" (.var "z")) (.var "b"))) .normal 100).getLastD (.var "z") =
    (reduceMany (.app (.app (.abs "x" (.abs "y" (.var "x"))) (.var "a"))
        (.app (.abs "z" (.var "z")) (.var "b"))) .applicative 100).getLastD (.var "z") := by
  refine ⟨by decide, by decide, by decide⟩

/-- C7: betaReduce returns none exactly on the terms containing no
beta-redex anywhere, so a caller can distinguish a reached normal form from
step-budget exhaustion by testing betaReduce on the final term. -/
theorem betaReduce_none_iff_no_redex (e : Expr) :
    betaReduce e = none ↔ hasRedex e = false := by
  induction e with
  | var name => simp [betaReduce, hasRedex]
  | abs param body ih =>
    cases hb : betaReduce body with
    | none => simp [betaReduce, hasRedex, hb, ih.mp hb]
    | some reduced =>
      have : hasRedex body = true := by
        cases hr : hasRedex body with
        | true => rfl
        | false =>
          rw [ih.mpr hr] at hb
          exact absurd hb (by simp)
      simp [betaReduce, hasRedex, hb, this]
  | app left right ihl ihr =>
    cases left with
    | abs param body => simp [betaReduce, hasRedex]
    | var name =>
      cases hr : betaReduce right with
      | none => simp [betaReduce, hasRedex, hr, ihr.mp hr, ihl]
      | some reduced =>
        have : hasRedex right = true := by
          cases h : hasRedex right with
          | true => rfl
          | false => rw [ihr.mpr h] at hr; exact absurd hr (by simp)
        simp [betaReduce, hasRedex, hr, this]
    | app l2 r2 =>
      have hunfold : betaReduce (Expr.app (Expr.app l2 r2) right) =
          (match betaReduce (Expr.app l2 r2) with
           | some x => some (Expr.app x right)
           | none =>
             match betaReduce right with
             | some y => some (Expr.app (Expr.app l2 r2) y)
             | none => none) := rfl
      cases hl : betaReduce (Expr.app l2 r2) with
      | none =>
        cases hr : betaReduce right with
        | none =>
          rw [hunfold, hl, hr]
          have h1 := ihl.mp hl
          have h2 := ihr.mp hr
          simp only [hasRedex, Bool.or_eq_false_iff] at h1
          simp [hasRedex, h1.1, h1.2, h2]
        | some reduced =>
          have hright : hasRedex right = true := by
            cases h : hasRedex right with
            | true => rfl
            | false => rw [ihr.mpr h] at hr; exact absurd hr (by simp)
          rw [hunfold, hl, hr]
          simp [hasRedex, hright]
      | some reduced =>
        have hleft : hasRedex (Expr.app l2 r2) = true := by
          cases h : hasRedex (Expr.app l2 r2) with
          | true => rfl
          | false => rw [ihl.mpr h] at hl; exact absurd hl (by simp)
        rw [hunfold, hl]
        simp only [hasRedex] at hleft ⊢
        simp [hleft]

/-- C1 (amended): LambdaEvaluator.substitute in evaluator.ts is
capture-avoiding: substituting r (with v free in r) for p under a binder v
renames the binder to a fresh name that is free neither in the body nor in
r and differs from v, so no occurrence of v contributed by r is captured by
the renamed abstraction.  (The legacy substitute in lambdaCalculus.ts does
not rename; see the counterexample theorem.) -/
theorem substitute_capture_avoiding (v p : String) (body r : Expr)
    (hne : p ≠ v) (hfree : containsFreeVariable r v = true) :
    ∃ newParam,
      substitute (.abs v body) p r =
        .abs newParam (substitute (substitute body v (.var newParam)) p r) ∧
      containsFreeVariable body newParam = false ∧
      containsFreeVariable r newParam = false ∧
      newParam ≠ v ∧
      containsFreeVariable (substitute (.abs v body) p r) v =
        containsFreeVariable (substitute (substitute body v (.var newParam)) p r) v := by
  refine ⟨generateFreshVariable v [.abs v body, r], ?_⟩
  have hfreshBody := generateFreshVariable_fresh v [.abs v body, r] (.abs v body) (by simp)
  have hfreshR := generateFreshVariable_fresh v [.abs v body, r] r (by simp)
  have hnev : generateFreshVariable v [.abs v body, r] ≠ v :=
    generateFreshVariable_ne_base v [.abs v body, r]
  have hfreshBody2 : containsFreeVariable body (generateFreshVariable v [.abs v body, r]) = false := by
    have : containsFreeVariable (.abs v body) (generateFreshVariable v [.abs v body, r]) =
        containsFreeVariable body (generateFreshVariable v [.abs v body, r]) := by
      simp only [containsFreeVariable]
      rw [if_neg (by simpa using fun hc => hnev hc.symm)]
    rw [← this]
    exact hfreshBody
  have hmain : substitute (.abs v body) p r =
      .abs (generateFreshVariable v [.abs v body, r])
        (substitute (substitute body v (.var (generateFreshVariable v [.abs v body, r]))) p r) := by
    show substF r p (Expr.size (.abs v body)) (.abs v body) = _
    have hsz : Expr.size (.abs v body) = body.size + 1 := rfl
    rw [hsz]
    simp only [substF]
    rw [if_neg (by simpa using fun hc => hne hc.symm), if_pos hfree]
    have hrename : (substF (.var (generateFreshVariable v [.abs v body, r])) v body.size body).size
        = body.size :=
      substF_var_size body.size body (le_refl _) body.size v _ (le_refl _)
    show Expr.abs _ (substF r p body.size _) = Expr.abs _ (substF r p _ _)
    rw [show substitute body v (.var (generateFreshVariable v [.abs v body, r])) =
      substF (.var (generateFreshVariable v [.abs v body, r])) v body.size body from rfl]
    rw [hrename]
  refine ⟨hmain, hfreshBody2, hfreshR, hnev, ?_⟩
  rw [hmain]
  simp only [containsFreeVariable]
  rw [if_neg (by simpa using hnev)]

/-- Witness for C1 at a concrete input: substituting r = x for p = y inside
λx.y renames the binder to x1 and yields λx1.x, leaving the x from r free. -/
theorem substitute_capture_avoiding_witness :
    ("y" : String) ≠ "x" ∧
    containsFreeVariable (.var "x") "x" = true ∧
    ∃ newParam,
      substitute (.abs "x" (.var "y")) "y" (.var "x") =
        .abs newParam (substitute (substitute (.var "y") "x" (.var newParam)) "y" (.var "x")) ∧
      containsFreeVariable (.var "y") newParam = false ∧
      containsFreeVariable (.var "x") newParam = false ∧
      newParam ≠ "x" ∧
      containsFreeVariable (substitute (.abs "x" (.var "y")) "y" (.var "x")) "x" =
        containsFreeVariable (substitute (substitute (.var "y") "x" (.var newParam)) "y" (.var "x")) "x" :=
  ⟨by decide, by decide,
    substitute_capture_avoiding "x" "y" (.var "y") (.var "x") (by decide) (by decide)⟩

end ClaimProofs

/-! ## Round-trip lemmas for the de Bruijn conversion -/

theorem findIdx?_zip_fst {α β : Type} : ∀ (as : List α) (bs : List β), as.length = bs.length →
    ∀ (p : α → Bool) (i : Nat),
      (as.zip bs).findIdx? (fun q => p q.1) i = as.findIdx? p i := by
  intro as
  induction as with
  | nil => intro bs _ p i; simp
  | cons a as ih =>
    intro bs hlen p i
    cases bs with
    | nil => simp at hlen
    | cons b bs =>
      simp only [List.zip_cons_cons, List.findIdx?_cons]
      by_cases hp : p a
      · simp [hp]
      · simp only [hp, Bool.false_eq_true, if_false]
        exact ih bs (by simpa using hlen) p (i + 1)

theorem findIdx?_zip_snd {α β : Type} : ∀ (as : List α) (bs : List β), as.length = bs.length →
    ∀ (p : β → Bool) (i : Nat),
      (as.zip bs).findIdx? (fun q => p q.2) i = bs.findIdx? p i := by
  intro as
  induction as with
  | nil =>
    intro bs hlen p i
    cases bs with
    | nil => simp
    | cons b bs => simp at hlen
  | cons a as ih =>
    intro bs hlen p i
    cases bs with
    | nil => simp at hlen
    | cons b bs =>
      simp only [List.zip_cons_cons, List.findIdx?_cons]
      by_cases hp : p b
      · simp [hp]
      · simp only [hp, Bool.false_eq_true, if_false]
        exact ih bs (by simpa using hlen) p (i + 1)

theorem nodup_findIdx_getElem : ∀ (l : List String) (k : Nat) (hk : k < l.length),
    l.Nodup → ∀ i, l.findIdx? (fun x => x == l[k]) i = some (i + k) := by
  intro l
  induction l with
  | nil => intro k hk; simp at hk
  | cons a t ih =>
    intro k hk hnodup i
    match k with
    | 0 => simp
    | k + 1 =>
      have hkt : k < t.length := by simpa using hk
      have hmem : t[k] ∈ t := List.getElem_mem hkt
      have hne : (a == (a :: t)[k + 1]) = false := by
        have hnm : a ∉ t := (List.nodup_cons.mp hnodup).1
        have : a ≠ t[k] := fun h => hnm (h ▸ hmem)
        simpa using this
      rw [List.findIdx?_cons, hne]
      simp only [Bool.false_eq_true, if_false]
      rw [show ((a :: t)[k + 1] : String) = t[k] from rfl]
      rw [ih k hkt (List.nodup_cons.mp hnodup).2 (i + 1)]
      congr 1
      omega

theorem findIdx?_mem : ∀ (ctx : List String) (name : String), name ∈ ctx → ∀ i,
    ∃ k, ctx.findIdx? (fun x => x == name) i = some (i + k) ∧ k < ctx.length := by
  intro ctx
  induction ctx with
  | nil => intro name h; simp at h
  | cons a t ih =>
    intro name hmem i
    by_cases ha : a == name
    · exact ⟨0, by simp [List.findIdx?_cons, ha], by simp⟩
    · have hmt : name ∈ t := by
        rcases List.mem_cons.mp hmem with h | h
        · exact absurd (by simp [h]) ha
        · exact h
      obtain ⟨k, hk, hlt⟩ := ih name hmt (i + 1)
      refine ⟨k + 1, ?_, by simpa using Nat.succ_lt_succ hlt⟩
      rw [List.findIdx?_cons]
      simp only [ha, Bool.false_eq_true, if_false]
      rw [hk]
      congr 1
      omega

theorem generateFreshName_shape (context : List String) :
    ∀ fuel i, ∃ c, DeBruijn.findFreshXAux context fuel i = "x" ++ natToString c := by
  intro fuel
  induction fuel with
  | zero => intro i; exact ⟨i, rfl⟩
  | succ fuel ih =>
    intro i
    by_cases h : ("x" ++ natToString i) ∈ context
    · simp only [DeBruijn.findFreshXAux]
      rw [if_pos (by simpa using h)]
      exact ih (i + 1)
    · exact ⟨i, by simp only [DeBruijn.findFreshXAux]; rw [if_neg (by simpa using h)]⟩

theorem findFreshXAux_spec (context : List String) :
    ∀ fuel i, (∃ k, k < fuel ∧ ("x" ++ natToString (i + k)) ∉ context) →
      DeBruijn.findFreshXAux context fuel i ∉ context := by
  intro fuel
  induction fuel with
  | zero =>
    intro i ⟨k, hk, _⟩
    omega
  | succ fuel ih =>
    intro i ⟨k, hk, hfree⟩
    simp only [DeBruijn.findFreshXAux]
    by_cases hc : ("x" ++ natToString i) ∈ context
    · rw [if_pos (by simpa using hc)]
      apply ih
      match k with
      | 0 =>
        rw [Nat.add_zero] at hfree
        exact absurd hc hfree
      | k + 1 =>
        exact ⟨k, by omega, by rw [show i + 1 + k = i + (k + 1) by omega]; exact hfree⟩
    · rw [if_neg (by simpa using hc)]
      exact hc

theorem generateFreshName_not_mem (context : List String) :
    DeBruijn.generateFreshName context ∉ context := by
  simp only [DeBruijn.generateFreshName]
  cases hfind : (["x", "y", "z", "a", "b", "c", "m", "n"] : List String).find?
      (fun v => !(context.contains v)) with
  | some v =>
    have := List.find?_some hfind
    simpa using this
  | none =>
    apply findFreshXAux_spec
    have hinj : Function.Injective (fun k => "x" ++ natToString k) :=
      string_append_natToString_injective "x"
    obtain ⟨k, hk, hfree⟩ := LambdaEvaluator.exists_fresh_index _ hinj context
    exact ⟨k, by omega, by simpa using hfree⟩

theorem roundtrip_alpha_ctx : ∀ (t : Expr) (ctx ctx2 : List String),
    ctx2.length = ctx.length → ctx2.Nodup → allVarsBound t ctx = true →
    alphaEqCtx (DeBruijn.fromDeBruijnWithContext (DeBruijn.toDeBruijnWithContext t ctx) ctx2)
      t (ctx2.zip ctx) = true := by
  intro t
  induction t with
  | var name =>
    intro ctx ctx2 hlen hnodup hbound
    simp only [allVarsBound] at hbound
    have hmem : name ∈ ctx := by simpa using hbound
    obtain ⟨k, hfind, hk⟩ := findIdx?_mem ctx name hmem 0
    rw [Nat.zero_add] at hfind
    have htoDB : DeBruijn.toDeBruijnWithContext (.var name) ctx = .var (k : Int) := by
      simp only [DeBruijn.toDeBruijnWithContext, jsIndexOf, hfind]
      rw [if_neg (by simp)]
    rw [htoDB]
    have hk2 : k < ctx2.length := by omega
    have hfromDB : DeBruijn.fromDeBruijnWithContext (.var (k : Int)) ctx2 = .var (ctx2[k]) := by
      simp only [DeBruijn.fromDeBruijnWithContext]
      rw [if_neg (by simp; omega)]
      rw [if_pos (by simp)]
      rw [show ((k : Int).toNat) = k by simp]
      rw [List.getD_eq_getElem ctx2 "" hk2]
    rw [hfromDB]
    simp only [alphaEqCtx]
    rw [findIdx?_zip_fst ctx2 ctx hlen (fun x => x == ctx2[k]) 0,
      findIdx?_zip_snd ctx2 ctx hlen (fun x => x == name) 0]
    rw [nodup_findIdx_getElem ctx2 k hk2 hnodup 0, hfind]
    simp
  | abs param body ih =>
    intro ctx ctx2 hlen hnodup hbound
    simp only [allVarsBound] at hbound
    simp only [DeBruijn.toDeBruijnWithContext, DeBruijn.fromDeBruijnWithContext]
    simp only [alphaEqCtx]
    have hfresh := generateFreshName_not_mem ctx2
    have := ih (param :: ctx) (DeBruijn.generateFreshName ctx2 :: ctx2)
      (by simp [hlen]) (List.nodup_cons.mpr ⟨hfresh, hnodup⟩) hbound
    simpa [List.zip_cons_cons] using this
  | app left right ihl ihr =>
    intro ctx ctx2 hlen hnodup hbound
    simp only [allVarsBound, Bool.and_eq_true] at hbound
    simp only [DeBruijn.toDeBruijnWithContext, DeBruijn.fromDeBruijnWithContext]
    simp only [alphaEqCtx, Bool.and_eq_true]
    exact ⟨ihl ctx ctx2 hlen hnodup hbound.1, ihr ctx ctx2 hlen hnodup hbound.2⟩

theorem fromRaw_toRaw_agree : ∀ (t : DeBruijnTerm) (ctx : List String),
    DeBruijn.fromDeBruijnRawWithContext t.toRaw ctx =
      .ok (DeBruijn.fromDeBruijnWithContext t ctx) := by
  intro t
  induction t with
  | var index =>
    intro ctx
    simp only [DeBruijnTerm.toRaw, DeBruijn.fromDeBruijnRawWithContext,
      DeBruijn.fromDeBruijnWithContext]
    split
    · rfl
    · split <;> rfl
  | lam body ih =>
    intro ctx
    simp only [DeBruijnTerm.toRaw, DeBruijn.fromDeBruijnRawWithContext,
      DeBruijn.fromDeBruijnWithContext]
    rw [ih]
  | app left right ihl ihr =>
    intro ctx
    simp only [DeBruijnTerm.toRaw, DeBruijn.fromDeBruijnRawWithContext,
      DeBruijn.fromDeBruijnWithContext]
    rw [ihl, ihr]

namespace ClaimProofs

open LambdaEvaluator

/-- C2: for every closed term t, converting to de Bruijn form and back
yields a term alpha-equivalent to t: the binding structure is preserved,
only the variable names may change. -/
theorem deBruijn_roundtrip_alpha (t : Expr) (hclosed : allVarsBound t [] = true) :
    alphaEq (DeBruijn.fromDeBruijn (DeBruijn.toDeBruijn t)) t = true := by
  have := roundtrip_alpha_ctx t [] [] rfl List.nodup_nil hclosed
  simpa [alphaEq, DeBruijn.fromDeBruijn, DeBruijn.toDeBruijn] using this

/-- Witness for C2 at a concrete closed term: λa.λb.a b round-trips to
λx.λy.x y, which is alpha-equivalent to the input. -/
theorem deBruijn_roundtrip_alpha_witness :
    allVarsBound (.abs "a" (.abs "b" (.app (.var "a") (.var "b")))) [] = true ∧
    alphaEq
      (DeBruijn.fromDeBruijn (DeBruijn.toDeBruijn (.abs "a" (.abs "b" (.app (.var "a") (.var "b"))))))
      (.abs "a" (.abs "b" (.app (.var "a") (.var "b")))) = true :=
  ⟨by decide, deBruijn_roundtrip_alpha (.abs "a" (.abs "b" (.app (.var "a") (.var "b")))) (by decide)⟩

/-- C5 (amended): the dimension pass of deBruijn.ts satisfies the claimed
equations (Var is width 1 height 0, Lam adds one to the height, App sums
widths and takes max height plus one), and consequently its width equals
the number of Var leaves; the dimension pass of trompDiagramGrid.ts swaps
the two axes, so there it is the height that counts the Var leaves. -/
theorem dimension_law :
    (∀ i : Int, DeBruijn.calculateDimensions (.var i) = ⟨1, 0⟩) ∧
    (∀ body : DeBruijnTerm, DeBruijn.calculateDimensions (.lam body) =
      ⟨(DeBruijn.calculateDimensions body).width, (DeBruijn.calculateDimensions body).height + 1⟩) ∧
    (∀ left right : DeBruijnTerm, DeBruijn.calculateDimensions (.app left right) =
      ⟨(DeBruijn.calculateDimensions left).width + (DeBruijn.calculateDimensions right).width,
        max (DeBruijn.calculateDimensions left).height (DeBruijn.calculateDimensions right).height + 1⟩) ∧
    (∀ t : DeBruijnTerm, (DeBruijn.calculateDimensions t).width = DeBruijn.countVarLeaves t) ∧
    (∀ t : DeBruijnTerm, (GridTrompGenerator.calculateDimensions t).height = DeBruijn.countVarLeaves t) := by
  refine ⟨fun i => rfl, fun body => rfl, fun left right => rfl, ?_, ?_⟩
  · intro t
    induction t with
    | var index => rfl
    | lam body ih => simpa [DeBruijn.calculateDimensions, DeBruijn.countVarLeaves] using ih
    | app left right ihl ihr =>
      simp [DeBruijn.calculateDimensions, DeBruijn.countVarLeaves, ihl, ihr]
  · intro t
    induction t with
    | var index => rfl
    | lam body ih => simpa [GridTrompGenerator.calculateDimensions, DeBruijn.countVarLeaves] using ih
    | app left right ihl ihr =>
      simp [GridTrompGenerator.calculateDimensions, DeBruijn.countVarLeaves, ihl, ihr]

/-- Counterexample to C5 as stated: the dimension pass of
trompDiagramGrid.ts gives a Var width 0 and height 1, not width 1 and
height 0 as the claim asserts of the dimension pass. -/
theorem dimension_law_grid_counterexample :
    ¬ ((GridTrompGenerator.calculateDimensions (.var 0)).width = 1 ∧
       (GridTrompGenerator.calculateDimensions (.var 0)).height = 0) := by
  decide

/-- C6: the permissive policy of deBruijn.ts: an unbound variable converts
to the sentinel index -1 instead of failing; converting back, an index of
-1 or one beyond the context becomes a deterministic free_<n> placeholder;
and on every fully-formed de Bruijn term the conversion back never throws
(returns ok, never error). -/
theorem permissive_free_variable_policy :
    (∀ (name : String) (context : List String), name ∉ context →
      DeBruijn.toDeBruijnWithContext (.var name) context = .var (-1)) ∧
    (∀ (index : Int) (context : List String),
      index = -1 ∨ (context.length : Int) ≤ index →
      DeBruijn.fromDeBruijnRawWithContext (.var (some index)) context =
        .ok (.var ("free_" ++
          (if index == -1 then natToString context.length else natToString index.toNat)))) ∧
    (∀ (t : DeBruijnTerm) (context : List String),
      ∃ e, DeBruijn.fromDeBruijnRawWithContext t.toRaw context = .ok e) := by
  refine ⟨?_, ?_, ?_⟩
  · intro name context hnot
    have hnone : context.findIdx? (fun x => x == name) = none := by
      rw [List.findIdx?_eq_none_iff]
      intro x hx
      simp only [beq_eq_false_iff_ne, ne_eq]
      intro hxe
      exact hnot (hxe ▸ hx)
    simp only [DeBruijn.toDeBruijnWithContext, jsIndexOf, hnone]
    simp
  · intro index context hcond
    simp only [DeBruijn.fromDeBruijnRawWithContext]
    rw [if_pos]
    rcases hcond with h | h
    · simp [h]
    · simp only [Bool.or_eq_true, beq_iff_eq, decide_eq_true_eq]
      exact Or.inr h
  · intro t context
    exact ⟨DeBruijn.fromDeBruijnWithContext t context, fromRaw_toRaw_agree t context⟩

/-- Witness for C6 at concrete inputs: the unbound y under context [x]
becomes index -1; index 5 against the empty context becomes free_5; and the
raw form of λ.0 converts back without an error. -/
theorem permissive_free_variable_policy_witness :
    ("y" ∉ (["x"] : List String)) ∧
    DeBruijn.toDeBruijnWithContext (.var "y") ["x"] = .var (-1) ∧
    DeBruijn.fromDeBruijnRawWithContext (.var (some 5)) [] = .ok (.var "free_5") ∧
    ∃ e, DeBruijn.fromDeBruijnRawWithContext (DeBruijnTerm.lam (.var 0)).toRaw [] = .ok e := by
  refine ⟨by decide, permissive_free_variable_policy.1 "y" ["x"] (by decide), ?_, ?_⟩
  · have := permissive_free_variable_policy.2.1 5 [] (by decide)
    rw [this]
    rfl
  · exact permissive_free_variable_policy.2.2 (DeBruijnTerm.lam (.var 0)) []

/-- Counterexample to C1 as stated: the legacy substitute of
lambdaCalculus.ts does not rename the binder: substituting x for y inside
λx.y yields λx.x, where the x coming from the replacement is captured (x
was free in the replacement but is no longer free in the result). -/
theorem substitute_lambdaCalculus_captures :
    LambdaEvaluator.containsFreeVariable (.var "x") "x" = true ∧
    LambdaCalculus.substitute (.abs "x" (.var "y")) "y" (.var "x") = .abs "x" (.var "x") ∧
    LambdaEvaluator.containsFreeVariable
      (LambdaCalculus.substitute (.abs "x" (.var "y")) "y" (.var "x")) "x" = false := by
  refine ⟨by decide, by decide, by decide⟩

end ClaimProofs

theorem generateVisual_node_count :
    ∀ (t : DeBruijnTerm) (x y : Nat) (binders : List Nat)
      (nodes : List GridNode) (links : List GridLink)
      (orig : Expr) (opts : TrompDiagramOptions) (st : GridGenState),
      ((GridTrompGenerator.generateVisual t x y binders nodes links orig opts st).nodes.filter
        (fun n => n.type == NodeKind.variable)).length =
        (nodes.filter (fun n => n.type == NodeKind.variable)).length +
          DeBruijn.countVarLeaves t := by
  intro t
  induction t with
  | var index =>
    intro x y binders nodes links orig opts st
    simp only [GridTrompGenerator.generateVisual]
    by_cases h : index < (binders.length : Int)
    · rw [if_pos h]
      simp [List.filter_append, DeBruijn.countVarLeaves]
    · rw [if_neg h]
      simp [List.filter_append, DeBruijn.countVarLeaves]
  | lam body ih =>
    intro x y binders nodes links orig opts st
    simp only [GridTrompGenerator.generateVisual]
    rw [ih]
    simp [List.filter_append, DeBruijn.countVarLeaves]
  | app left right ihl ihr =>
    intro x y binders nodes links orig opts st
    simp only [GridTrompGenerator.generateVisual]
    rw [ihl, ihr]
    simp [DeBruijn.countVarLeaves]
    omega

theorem generateVisual_link_count :
    ∀ (t : DeBruijnTerm) (x y : Nat) (binders : List Nat)
      (nodes : List GridNode) (links : List GridLink)
      (orig : Expr) (opts : TrompDiagramOptions) (st : GridGenState),
      ((GridTrompGenerator.generateVisual t x y binders nodes links orig opts st).links.filter
        (fun l => l.type == NodeKind.variable)).length =
        (links.filter (fun l => l.type == NodeKind.variable)).length +
          varLinkCountJS t binders.length := by
  intro t
  induction t with
  | var index =>
    intro x y binders nodes links orig opts st
    simp only [GridTrompGenerator.generateVisual]
    by_cases h : index < (binders.length : Int)
    · rw [if_pos h]
      simp [List.filter_append, varLinkCountJS, h]
    · rw [if_neg h]
      simp [varLinkCountJS, h]
  | lam body ih =>
    intro x y binders nodes links orig opts st
    simp only [GridTrompGenerator.generateVisual]
    rw [List.filter_append, List.length_append, ih]
    simp [varLinkCountJS]
  | app left right ihl ihr =>
    intro x y binders nodes links orig opts st
    simp only [GridTrompGenerator.generateVisual]
    rw [List.filter_append, List.length_append, ihl, ihr]
    simp [varLinkCountJS]
    omega

namespace ClaimProofs

open LambdaEvaluator

/-- C9 (amended): in every diagram the grid generator produces, the number
of variable nodes equals the number of Var leaves, and the number of
variable-typed binder links equals the number of Var leaves whose index
passes the JS signed check index < binder-stack length.  Hence a variable
with index in [0, stack length) gets exactly one binder link (typed
variable, not abstraction), a variable with index at or beyond the stack
length gets none, but the free-variable sentinel -1 under a non-empty
binder stack also gets one (spurious, with an undefined binder
coordinate). -/
theorem binder_link_completeness :
    ∀ (st : GridGenState) (e : Expr) (opts : TrompDiagramOptions),
      (((GridTrompGenerator.generateGrid st e opts).1.nodes.filter
        (fun n => n.type == NodeKind.variable)).length =
          DeBruijn.countVarLeaves (DeBruijn.toDeBruijn e)) ∧
      (((GridTrompGenerator.generateGrid st e opts).1.links.filter
        (fun l => l.type == NodeKind.variable)).length =
          varLinkCountJS (DeBruijn.toDeBruijn e) 0) := by
  intro st e opts
  have h1 := generateVisual_node_count (DeBruijn.toDeBruijn e) 0 0 [] [] [] e opts
    { st with nodeCounter := 0, linkCounter := 0 }
  have h2 := generateVisual_link_count (DeBruijn.toDeBruijn e) 0 0 [] [] [] e opts
    { st with nodeCounter := 0, linkCounter := 0 }
  simp only [List.filter_nil, List.length_nil, Nat.zero_add, List.length_nil] at h1 h2
  exact ⟨h1, h2⟩

/-- Counterexample to C9 as stated: for λx.y the sole variable node is free
(sentinel index -1, no binder), yet the generator emits one variable-typed
binder link for it, with NaN as the binder-side coordinate, where the claim
requires zero binder links for free variables (the claim also calls
bound-variable links abstraction-typed while the source types them
variable). -/
theorem binder_link_free_var_counterexample :
    ((GridTrompGenerator.generateGrid ⟨0, 0⟩ (.abs "x" (.var "y"))).1.nodes.filter
      (fun n => n.type == NodeKind.variable)).length = 1 ∧
    (∀ n ∈ (GridTrompGenerator.generateGrid ⟨0, 0⟩ (.abs "x" (.var "y"))).1.nodes,
      n.type == NodeKind.variable → n.binderIndex = none) ∧
    ((GridTrompGenerator.generateGrid ⟨0, 0⟩ (.abs "x" (.var "y"))).1.links.filter
      (fun l => l.type == NodeKind.variable)).map
        (fun l => (l.id, l.points.map (fun p => JSNum.isNan p.1))) =
      [("link_0", [false, true])] := by
  refine ⟨by decide, by decide, by decide⟩

/-- C8: both layout generators reset their internal node and link id
counters (and, for the classic generator, every other instance field) at
the start of each call, so calling the generator a second time on the same
expression and options, with whatever instance state the first call left
behind, produces a structurally identical diagram. -/
theorem layout_idempotent :
    (∀ (s : TDState) (e : Expr) (alt : Bool),
      (TrompDiagramGenerator.generateDiagram
        ((TrompDiagramGenerator.generateDiagram s e alt).2) e alt).1 =
      (TrompDiagramGenerator.generateDiagram s e alt).1) ∧
    (∀ (s : GridGenState) (e : Expr) (opts : TrompDiagramOptions),
      (GridTrompGenerator.generateGrid
        ((GridTrompGenerator.generateGrid s e opts).2) e opts).1 =
      (GridTrompGenerator.generateGrid s e opts).1) :=
  ⟨fun _ _ _ => rfl, fun _ _ _ => rfl⟩

end ClaimProofs

theorem exprToString_app_unfold (l r : Expr) :
    LambdaEvaluator.exprToString (.app l r) =
      (match l with
       | .abs _ _ => "(" ++ LambdaEvaluator.exprToString l ++ ")"
       | _ => LambdaEvaluator.exprToString l) ++ " " ++
      (match r with
       | .app _ _ => "(" ++ LambdaEvaluator.exprToString r ++ ")"
       | .abs _ _ => "(" ++ LambdaEvaluator.exprToString r ++ ")"
       | _ => LambdaEvaluator.exprToString r) := rfl

theorem exprToString_data : ∀ t : Expr, (LambdaEvaluator.exprToString t).data = tsL t := by
  intro t
  induction t with
  | var name => rfl
  | abs param body ih =>
    show ("λ" ++ param ++ "." ++ LambdaEvaluator.exprToString body).data = _
    simp [String.data_append, ih, tsL]
  | app left right ihl ihr =>
    rw [exprToString_app_unfold]
    show _ = tsL (.app left right)
    cases left <;> cases right <;>
      simp [String.data_append, ihl, ihr, tsL]

theorem spine_foldl : ∀ t : Expr, (spineArgs t).foldl .app (spineHead t) = t := by
  intro t
  induction t with
  | var name => rfl
  | abs param body _ => rfl
  | app left right ihl _ =>
    simp only [spineArgs, spineHead, List.foldl_append, ihl, List.foldl_cons, List.foldl_nil]

theorem wf_spine : ∀ t : Expr, wfNames t = true →
    wfNames (spineHead t) = true ∧ ∀ a ∈ spineArgs t, wfNames a = true := by
  intro t
  induction t with
  | var name => intro h; exact ⟨h, by simp [spineArgs]⟩
  | abs param body _ => intro h; exact ⟨h, by simp [spineArgs]⟩
  | app left right ihl _ =>
    intro h
    simp only [wfNames, Bool.and_eq_true] at h
    obtain ⟨hh, hargs⟩ := ihl h.1
    refine ⟨hh, ?_⟩
    intro a ha
    simp only [spineArgs, List.mem_append, List.mem_singleton] at ha
    rcases ha with ha | ha
    · exact hargs a ha
    · rw [ha]; exact h.2

theorem spine_size : ∀ l r : Expr,
    (spineHead (.app l r)).size < (Expr.app l r).size ∧
    ∀ a ∈ spineArgs (.app l r), a.size < (Expr.app l r).size := by
  intro l
  induction l with
  | var name =>
    intro r
    constructor
    · simp only [spineHead, Expr.size]
      have := r.size_pos
      omega
    · intro a ha
      simp only [spineArgs, List.nil_append, List.mem_singleton] at ha
      rw [ha]
      simp only [Expr.size]
      omega
  | abs param body _ =>
    intro r
    constructor
    · simp only [spineHead, Expr.size]
      have := r.size_pos
      omega
    · intro a ha
      simp only [spineArgs, List.nil_append, List.mem_singleton] at ha
      rw [ha]
      simp only [Expr.size]
      omega
  | app l2 r2 ih =>
    intro r
    obtain ⟨ih1, ih2⟩ := ih r2
    constructor
    · show (spineHead (Expr.app l2 r2)).size < _
      simp only [Expr.size] at ih1 ⊢
      omega
    · intro a ha
      have hsplit : spineArgs (.app (.app l2 r2) r) = spineArgs (.app l2 r2) ++ [r] := rfl
      rw [hsplit] at ha
      rcases List.mem_append.mp ha with ha | ha
      · have := ih2 a ha
        simp only [Expr.size] at this ⊢
        omega
      · rw [List.mem_singleton.mp ha]
        simp only [Expr.size]
        omega

theorem spine_size_sum : ∀ t : Expr,
    t.size = (spineHead t).size + ((spineArgs t).map Expr.size).sum + (spineArgs t).length := by
  intro t
  induction t with
  | var name => simp [spineHead, spineArgs]
  | abs param body _ => simp [spineHead, spineArgs]
  | app left right ihl _ =>
    simp only [spineHead, spineArgs, Expr.size, List.map_append, List.sum_append,
      List.length_append]
    simp only [List.map_cons, List.map_nil, List.sum_cons, List.sum_nil, List.length_cons,
      List.length_nil]
    omega

theorem argsStr_append (xs ys : List Expr) :
    argsStr (xs ++ ys) = argsStr xs ++ argsStr ys := by
  simp [argsStr]

theorem ts_app_spine : ∀ l r : Expr,
    tsL (.app l r) = paL (spineHead (.app l r)) ++ argsStr (spineArgs (.app l r)) := by
  intro l
  induction l with
  | var name =>
    intro r
    simp only [tsL, spineHead, spineArgs]
    cases r <;> simp [paL, argsStr, tsL]
  | abs param body _ =>
    intro r
    simp only [tsL, spineHead, spineArgs]
    cases r <;> simp [paL, argsStr, tsL]
  | app l2 r2 ih =>
    intro r
    have hstep : tsL (.app (.app l2 r2) r) =
        tsL (.app l2 r2) ++ (' ' :: (match r with
          | .app _ _ => '(' :: (tsL r ++ [')'])
          | .abs _ _ => '(' :: (tsL r ++ [')'])
          | _ => tsL r)) := rfl
    rw [hstep, ih r2]
    show _ = paL (spineHead (.app l2 r2)) ++ argsStr (spineArgs (.app l2 r2) ++ [r])
    rw [argsStr_append, ← List.append_assoc]
    congr 1
    cases r <;> simp [argsStr, paL, tsL]

theorem valid_not_ws (c : Char) (h : LambdaParser.isValidVarChar c = true) :
    LambdaParser.isWhitespaceChar c = false := by
  cases hw : LambdaParser.isWhitespaceChar c with
  | false => rfl
  | true =>
    exfalso
    simp only [LambdaParser.isWhitespaceChar, Bool.or_eq_true, beq_iff_eq] at hw
    rcases hw with ((rfl | rfl) | rfl) | rfl <;> exact absurd h (by decide)

theorem valid_ne (c d : Char) (hd : LambdaParser.isValidVarChar d = false)
    (h : LambdaParser.isValidVarChar c = true) : (c == d) = false := by
  cases he : c == d with
  | false => rfl
  | true =>
    rw [show c = d from by simpa using he] at h
    rw [h] at hd
    cases hd

theorem takeWhile_append_of_all (p : Char → Bool) : ∀ (xs rest : List Char),
    (∀ c ∈ xs, p c = true) → (∀ c, rest.head? = some c → p c = false) →
    (xs ++ rest).takeWhile p = xs ∧ (xs ++ rest).dropWhile p = rest := by
  intro xs
  induction xs with
  | nil =>
    intro rest _ hrest
    cases rest with
    | nil => simp
    | cons c cs =>
      have := hrest c rfl
      simp [List.takeWhile_cons, List.dropWhile_cons, this]
  | cons x xs ih =>
    intro rest hall hrest
    have hx : p x = true := hall x (List.mem_cons_self x xs)
    obtain ⟨h1, h2⟩ := ih rest (fun c hc => hall c (List.mem_cons_of_mem x hc)) hrest
    constructor
    · simp [List.takeWhile_cons, hx, h1]
    · simp [List.dropWhile_cons, hx, h2]

theorem skipWS_noop (s : List Char)
    (h : ∀ c, s.head? = some c → LambdaParser.isWhitespaceChar c = false) :
    LambdaParser.skipWhitespace s = s := by
  cases s with
  | nil => rfl
  | cons c cs =>
    have := h c rfl
    simp [LambdaParser.skipWhitespace, List.dropWhile_cons, this]

theorem skipWS_space (s : List Char) :
    LambdaParser.skipWhitespace (' ' :: s) = LambdaParser.skipWhitespace s := by
  simp only [LambdaParser.skipWhitespace, List.dropWhile_cons]
  rw [if_pos (by decide)]

theorem restOk_atomRestOk (rest : List Char) (h : RestOk rest) : AtomRestOk rest := by
  intro c hc
  rcases h with h | h | h
  · rw [h] at hc; cases hc
  · rw [h] at hc
    cases hc
    decide
  · rw [h] at hc
    cases hc
    decide

theorem restOk_not_ws (rest : List Char) (h : RestOk rest) :
    ∀ c, rest.head? = some c → LambdaParser.isWhitespaceChar c = false := by
  intro c hc
  rcases h with h | h | h
  · rw [h] at hc; cases hc
  · rw [h] at hc; cases hc; decide
  · rw [h] at hc; cases hc; decide

theorem validName_data (s : String) (h : validName s = true) :
    s.data ≠ [] ∧ ∀ c ∈ s.data, LambdaParser.isValidVarChar c = true := by
  simp only [validName, Bool.and_eq_true, Bool.not_eq_true'] at h
  constructor
  · intro he
    rw [he] at h
    simp at h
  · intro c hc
    have := h.2
    rw [List.all_eq_true] at this
    exact this c hc

theorem paL_shape (t : Expr) (h : wfNames t = true) :
    ∃ c cs, paL t = c :: cs ∧ (c = '(' ∨ LambdaParser.isValidVarChar c = true) := by
  cases t with
  | var name =>
    obtain ⟨hne, hall⟩ := validName_data name (by simpa [wfNames] using h)
    cases hd : name.data with
    | nil => exact absurd hd hne
    | cons c cs =>
      refine ⟨c, cs, by simp [paL, hd], Or.inr ?_⟩
      exact hall c (by rw [hd]; exact List.mem_cons_self c cs)
  | abs param body => exact ⟨'(', tsL (.abs param body) ++ [')'], rfl, Or.inl rfl⟩
  | app left right => exact ⟨'(', tsL (.app left right) ++ [')'], rfl, Or.inl rfl⟩

theorem head_facts_of_shape (c : Char) (h : c = '(' ∨ LambdaParser.isValidVarChar c = true) :
    LambdaParser.isWhitespaceChar c = false ∧ (c == ')') = false ∧ (c == '.') = false ∧
    (c == '\\') = false ∧ (c == 'λ') = false := by
  rcases h with rfl | h
  · refine ⟨by decide, by decide, by decide, by decide, by decide⟩
  · exact ⟨valid_not_ws c h, valid_ne c ')' (by decide) h, valid_ne c '.' (by decide) h,
      valid_ne c '\\' (by decide) h, valid_ne c 'λ' (by decide) h⟩

theorem atomFuelNeed_le (t : Expr) : atomFuelNeed t ≤ 6 * t.size + 2 := by
  cases t with
  | var name => simp [atomFuelNeed, Expr.size]
  | abs param body => simp [atomFuelNeed]
  | app left right => simp [atomFuelNeed]

theorem tsL_ne_nil (t : Expr) (h : wfNames t = true) : tsL t ≠ [] := by
  cases t with
  | var name =>
    have := (validName_data name (by simpa [wfNames] using h)).1
    simpa [tsL] using this
  | abs param body => simp [tsL]
  | app left right =>
    cases left <;> simp [tsL]

theorem argsStr_cons (a : Expr) (as : List Expr) :
    argsStr (a :: as) = ' ' :: (paL a ++ argsStr as) := by
  simp [argsStr]

theorem atomRestOk_argsStr (as : List Expr) (rest : List Char) (h : RestOk rest) :
    AtomRestOk (argsStr as ++ rest) := by
  cases as with
  | nil =>
    intro c hc
    exact restOk_atomRestOk rest h c (by simpa [argsStr] using hc)
  | cons b bs =>
    intro c hc
    rw [argsStr_cons] at hc
    simp only [List.cons_append, List.head?_cons, Option.some.injEq] at hc
    rw [← hc]
    decide

theorem parseAppLoop_printed : ∀ (args : List Expr),
    (∀ a ∈ args, wfNames a = true) →
    (∀ a ∈ args, ∀ (rest2 : List Char) (fuel2 : Nat), AtomRestOk rest2 →
      atomFuelNeed a ≤ fuel2 →
      LambdaParser.parseAtom fuel2 (paL a ++ rest2) = .ok (a, rest2)) →
    ∀ (acc : Expr) (rest : List Char) (fuel : Nat), RestOk rest →
      (args.map (fun a => 6 * a.size + 3)).sum + 1 ≤ fuel →
      LambdaParser.parseAppLoop fuel acc (LambdaParser.skipWhitespace (argsStr args ++ rest)) =
        .ok (args.foldl .app acc, rest) := by
  intro args
  induction args with
  | nil =>
    intro _ _ acc rest fuel hrest hfuel
    have hskip : LambdaParser.skipWhitespace (argsStr [] ++ rest) = rest := by
      simp only [argsStr, List.map_nil, List.join, List.nil_append]
      exact skipWS_noop rest (restOk_not_ws rest hrest)
    rw [hskip]
    match fuel, hfuel with
    | f + 1, _ =>
      rcases hrest with h | h | h
      · rw [h]
        rfl
      · cases rest with
        | nil => cases h
        | cons c cs =>
          simp only [List.head?_cons, Option.some.injEq] at h
          rw [h]
          simp [LambdaParser.parseAppLoop]
      · cases rest with
        | nil => cases h
        | cons c cs =>
          simp only [List.head?_cons, Option.some.injEq] at h
          rw [h]
          simp [LambdaParser.parseAppLoop]
  | cons a as ihas =>
    intro hwf hatoms acc rest fuel hrest hfuel
    obtain ⟨c, cs, hpa, hcshape⟩ := paL_shape a (hwf a (List.mem_cons_self a as))
    have hfacts := head_facts_of_shape c hcshape
    have hinput : argsStr (a :: as) ++ rest = ' ' :: (paL a ++ (argsStr as ++ rest)) := by
      rw [argsStr_cons]
      simp
    have hskip : LambdaParser.skipWhitespace (argsStr (a :: as) ++ rest) =
        paL a ++ (argsStr as ++ rest) := by
      rw [hinput, skipWS_space]
      apply skipWS_noop
      intro d hd
      rw [hpa] at hd
      simp only [List.cons_append, List.head?_cons, Option.some.injEq] at hd
      rw [← hd]
      exact hfacts.1
    rw [hskip]
    have hsum : 6 * a.size + 3 + ((as.map (fun a => 6 * a.size + 3)).sum + 1) ≤ fuel + 0 := by
      simp only [List.map_cons, List.sum_cons] at hfuel
      omega
    match fuel, hfuel with
    | f + 1, _ =>
      have hpa_cons : paL a ++ (argsStr as ++ rest) = c :: (cs ++ (argsStr as ++ rest)) := by
        rw [hpa]
        simp
      rw [hpa_cons]
      have hstep : LambdaParser.parseAppLoop (f + 1) acc (c :: (cs ++ (argsStr as ++ rest))) =
          (if c == ')' || c == '.' then .ok (acc, c :: (cs ++ (argsStr as ++ rest)))
           else
             match LambdaParser.parseAtom f (c :: (cs ++ (argsStr as ++ rest))) with
             | .error msg => .error msg
             | .ok (right, s1) =>
               LambdaParser.parseAppLoop f (.app acc right) (LambdaParser.skipWhitespace s1)) := by
        simp [LambdaParser.parseAppLoop]
      rw [hstep]
      rw [if_neg (by rw [hfacts.2.1, hfacts.2.2.1]; simp)]
      have hatom := hatoms a (List.mem_cons_self a as) (argsStr as ++ rest) f
        (atomRestOk_argsStr as rest hrest)
        (by have := atomFuelNeed_le a; omega)
      rw [← hpa_cons, hatom]
      have hrec := ihas (fun x hx => hwf x (List.mem_cons_of_mem a hx))
        (fun x hx => hatoms x (List.mem_cons_of_mem a hx))
        (.app acc a) rest f hrest (by omega)
      show LambdaParser.parseAppLoop f (acc.app a)
          (LambdaParser.skipWhitespace (argsStr as ++ rest)) =
        Except.ok (List.foldl Expr.app acc (a :: as), rest)
      rw [hrec]
      rfl

theorem skipWS_noop_cons (c : Char) (s : List Char)
    (h : LambdaParser.isWhitespaceChar c = false) :
    LambdaParser.skipWhitespace (c :: s) = c :: s := by
  simp [LambdaParser.skipWhitespace, List.dropWhile_cons, h]

theorem map_six_sum (xs : List Expr) :
    (xs.map (fun a => 6 * a.size + 3)).sum = 6 * (xs.map Expr.size).sum + 3 * xs.length := by
  induction xs with
  | nil => simp
  | cons x xs ih => simp [ih]; omega

theorem length_le_sum_sizes (xs : List Expr) : xs.length ≤ (xs.map Expr.size).sum := by
  induction xs with
  | nil => simp
  | cons x xs ih =>
    simp only [List.length_cons, List.map_cons, List.sum_cons]
    have := x.size_pos
    omega

theorem parseVariableName_printed (name : String) (rest : List Char)
    (hv : validName name = true) (hrest : AtomRestOk rest) :
    LambdaParser.parseVariableName (name.data ++ rest) = (name, rest) := by
  obtain ⟨hne, hall⟩ := validName_data name hv
  obtain ⟨ht, hd⟩ :=
    takeWhile_append_of_all LambdaParser.isValidVarChar name.data rest hall hrest
  simp only [LambdaParser.parseVariableName, ht, hd]

theorem parseAtom_var (name : String) (rest : List Char) (hv : validName name = true)
    (hrest : AtomRestOk rest) : ∀ fuel, 2 ≤ fuel →
    LambdaParser.parseAtom fuel (name.data ++ rest) = .ok (.var name, rest) := by
  intro fuel hfuel
  obtain ⟨hne, hall⟩ := validName_data name hv
  match fuel, hfuel with
  | f + 1, _ =>
    cases hdata : name.data with
    | nil => exact absurd hdata hne
    | cons c0 cs =>
      have hc0 : LambdaParser.isValidVarChar c0 = true :=
        hall c0 (by rw [hdata]; exact List.mem_cons_self _ _)
      have hpv := parseVariableName_printed name rest hv hrest
      rw [hdata] at hpv
      have hpv2 : LambdaParser.parseVariableName (c0 :: (cs ++ rest)) = (name, rest) := hpv
      show LambdaParser.parseAtom (f + 1) (c0 :: (cs ++ rest)) = _
      simp only [LambdaParser.parseAtom, skipWS_noop_cons c0 (cs ++ rest) (valid_not_ws c0 hc0),
        List.head?_cons]
      rw [if_neg (by rw [valid_ne c0 '(' (by decide) hc0]; simp)]
      rw [if_pos hc0]
      rw [hpv2]

theorem parseAtom_paren (t : Expr) (hpal : paL t = '(' :: (tsL t ++ [')']))
    (hexpr : ∀ rest fuel, RestOk rest → 6 * t.size ≤ fuel →
      LambdaParser.parseExpr fuel (tsL t ++ rest) = .ok (t, rest)) :
    ∀ rest fuel, AtomRestOk rest → 6 * t.size + 1 ≤ fuel →
      LambdaParser.parseAtom fuel (paL t ++ rest) = .ok (t, rest) := by
  intro rest fuel hrest hfuel
  match fuel, hfuel with
  | f + 1, _ =>
    rw [hpal]
    have hshape : ('(' :: (tsL t ++ [')'])) ++ rest = '(' :: (tsL t ++ (')' :: rest)) := by
      simp
    rw [hshape]
    simp only [LambdaParser.parseAtom, skipWS_noop_cons '(' _ (by decide), List.head?_cons,
      List.tail_cons]
    rw [if_pos (by decide)]
    rw [hexpr (')' :: rest) f (Or.inr (Or.inl rfl)) (by omega)]
    simp only [skipWS_noop_cons ')' rest (by decide), List.head?_cons]
    rw [if_pos (by decide)]
    rfl

theorem parse_printed : ∀ n t, Expr.size t ≤ n → wfNames t = true →
    (∀ (rest : List Char) (fuel : Nat), RestOk rest → 6 * t.size ≤ fuel →
      LambdaParser.parseExpr fuel (tsL t ++ rest) = .ok (t, rest)) ∧
    (∀ (rest : List Char) (fuel : Nat), AtomRestOk rest → atomFuelNeed t ≤ fuel →
      LambdaParser.parseAtom fuel (paL t ++ rest) = .ok (t, rest)) := by
  intro n
  induction n using Nat.strong_induction_on with
  | _ n ih =>
    intro t hsize hwf
    cases t with
    | var name =>
      have hvn : validName name = true := by simpa [wfNames] using hwf
      have hatom : ∀ (rest : List Char) (fuel : Nat), AtomRestOk rest →
          atomFuelNeed (.var name) ≤ fuel →
          LambdaParser.parseAtom fuel (paL (.var name) ++ rest) = .ok (.var name, rest) := by
        intro rest fuel hrest hfuel
        exact parseAtom_var name rest hvn hrest fuel (by simpa [atomFuelNeed] using hfuel)
      refine ⟨?_, hatom⟩
      intro rest fuel hrest hfuel
      simp only [Expr.size] at hfuel
      obtain ⟨hne, hall⟩ := validName_data name hvn
      match fuel, hfuel with
      | f + 1, _ =>
        cases hdata : name.data with
        | nil => exact absurd hdata hne
        | cons c0 cs =>
          have hc0 : LambdaParser.isValidVarChar c0 = true :=
            hall c0 (by rw [hdata]; exact List.mem_cons_self _ _)
          have hts : tsL (.var name) ++ rest = c0 :: (cs ++ rest) := by
            simp [tsL, hdata]
          rw [hts]
          simp only [LambdaParser.parseExpr,
            skipWS_noop_cons c0 (cs ++ rest) (valid_not_ws c0 hc0), List.head?_cons]
          rw [if_neg (by
            rw [show ((some c0 == some '\\') : Bool) = (c0 == '\\') from rfl,
              show ((some c0 == some 'λ') : Bool) = (c0 == 'λ') from rfl,
              valid_ne c0 '\\' (by decide) hc0, valid_ne c0 'λ' (by decide) hc0]
            simp)]
          match f, (by omega : 5 ≤ f) with
          | f1 + 1, _ =>
            have hatomf : LambdaParser.parseAtom f1 (c0 :: (cs ++ rest)) =
                .ok (.var name, rest) := by
              have := parseAtom_var name rest hvn (restOk_atomRestOk rest hrest) f1 (by omega)
              rw [hdata] at this
              exact this
            simp only [LambdaParser.parseApplication, hatomf]
            have hloop := parseAppLoop_printed [] (by simp) (by simp) (.var name) rest f1 hrest
              (by simp; omega)
            have hnilstr : argsStr ([] : List Expr) ++ rest = rest := by simp [argsStr]
            rw [hnilstr] at hloop
            rw [hloop]
            rfl
    | abs param body =>
      have hwfp : validName param = true := by
        simp only [wfNames, Bool.and_eq_true] at hwf
        exact hwf.1
      have hwfb : wfNames body = true := by
        simp only [wfNames, Bool.and_eq_true] at hwf
        exact hwf.2
      have hszb : body.size ≤ n - 1 := by
        simp only [Expr.size] at hsize
        omega
      have hnpos : n - 1 < n := by
        have := body.size_pos
        simp only [Expr.size] at hsize
        omega
      have ihb := (ih (n - 1) hnpos body hszb hwfb).1
      have hexpr : ∀ (rest : List Char) (fuel : Nat), RestOk rest →
          6 * (Expr.abs param body).size ≤ fuel →
          LambdaParser.parseExpr fuel (tsL (.abs param body) ++ rest) =
            .ok (.abs param body, rest) := by
        intro rest fuel hrest hfuel
        simp only [Expr.size] at hfuel
        match fuel, hfuel with
        | f + 1, _ =>
          have hts : tsL (.abs param body) ++ rest =
              'λ' :: (param.data ++ ('.' :: (tsL body ++ rest))) := by
            simp [tsL]
          rw [hts]
          simp only [LambdaParser.parseExpr,
            skipWS_noop_cons 'λ' _ (by decide), List.head?_cons, List.tail_cons]
          rw [if_pos (by decide)]
          match f, (by omega : 6 * body.size + 5 ≤ f) with
          | f1 + 1, _ =>
            obtain ⟨hpne, hpall⟩ := validName_data param hwfp
            have hpv := parseVariableName_printed param ('.' :: (tsL body ++ rest)) hwfp
              (by intro c hc; simp only [List.head?_cons, Option.some.injEq] at hc
                  rw [← hc]; decide)
            cases hpdata : param.data with
            | nil => exact absurd hpdata hpne
            | cons p0 ps =>
              have hp0 : LambdaParser.isValidVarChar p0 = true :=
                hpall p0 (by rw [hpdata]; exact List.mem_cons_self _ _)
              rw [hpdata] at hpv
              simp only [List.cons_append]
              have hpv2 : LambdaParser.parseVariableName
                  (p0 :: (ps ++ ('.' :: (tsL body ++ rest)))) =
                  (param, '.' :: (tsL body ++ rest)) := hpv
              simp only [LambdaParser.parseAbstraction,
                skipWS_noop_cons p0 _ (valid_not_ws p0 hp0), List.head?_cons]
              rw [if_pos hp0]
              rw [hpv2]
              simp only [skipWS_noop_cons '.' _ (by decide), List.head?_cons, List.tail_cons]
              rw [if_pos (by decide)]
              rw [ihb rest f1 hrest (by omega)]
      refine ⟨hexpr, ?_⟩
      exact parseAtom_paren (.abs param body) rfl hexpr
    | app left right =>
      have hwfspine := wf_spine (.app left right) hwf
      obtain ⟨hszh, hszargs⟩ := spine_size left right
      have hsum := spine_size_sum (.app left right)
      have hlen1 : 1 ≤ (spineArgs (.app left right)).length := by
        simp [spineArgs]
      have hlensum := length_le_sum_sizes (spineArgs (.app left right))
      have hexpr : ∀ (rest : List Char) (fuel : Nat), RestOk rest →
          6 * (Expr.app left right).size ≤ fuel →
          LambdaParser.parseExpr fuel (tsL (.app left right) ++ rest) =
            .ok (.app left right, rest) := by
        intro rest fuel hrest hfuel
        rw [ts_app_spine]
        obtain ⟨c, cs, hpa, hcshape⟩ := paL_shape (spineHead (.app left right)) hwfspine.1
        have hfacts := head_facts_of_shape c hcshape
        have hinput : (paL (spineHead (.app left right)) ++ argsStr (spineArgs (.app left right))) ++ rest =
            c :: (cs ++ (argsStr (spineArgs (.app left right)) ++ rest)) := by
          rw [hpa]
          simp
        rw [hinput]
        match fuel, (by have := (spineHead (.app left right)).size_pos; omega :
            6 * (Expr.app left right).size ≤ fuel ∧ 6 ≤ fuel) with
        | f + 1, _ =>
          simp only [LambdaParser.parseExpr,
            skipWS_noop_cons c _ hfacts.1, List.head?_cons]
          rw [if_neg (by
            rw [show ((some c == some '\\') : Bool) = (c == '\\') from rfl,
              show ((some c == some 'λ') : Bool) = (c == 'λ') from rfl,
              hfacts.2.2.2.1, hfacts.2.2.2.2]
            simp)]
          match f, (by omega : 6 ≤ f + 1) with
          | f1 + 1, _ =>
            have hih : ∀ a, a.size < (Expr.app left right).size → wfNames a = true →
                (∀ (rest2 : List Char) (fuel2 : Nat), AtomRestOk rest2 →
                  atomFuelNeed a ≤ fuel2 →
                  LambdaParser.parseAtom fuel2 (paL a ++ rest2) = .ok (a, rest2)) := by
              intro a hsa hwa
              have hn1 : n - 1 < n := by
                have := (Expr.app left right).size_pos
                omega
              exact (ih (n - 1) hn1 a (by omega) hwa).2
            have hatomh := hih (spineHead (.app left right)) hszh hwfspine.1
              (argsStr (spineArgs (.app left right)) ++ rest) f1
              (atomRestOk_argsStr _ rest hrest)
              (by
                have := atomFuelNeed_le (spineHead (.app left right))
                simp only [Expr.size] at hfuel hsum ⊢
                omega)
            have hatomh2 : LambdaParser.parseAtom f1
                (c :: (cs ++ (argsStr (spineArgs (.app left right)) ++ rest))) =
                .ok (spineHead (.app left right), argsStr (spineArgs (.app left right)) ++ rest) := by
              rw [show (c :: (cs ++ (argsStr (spineArgs (.app left right)) ++ rest))) =
                paL (spineHead (.app left right)) ++ (argsStr (spineArgs (.app left right)) ++ rest)
                from by rw [hpa]; simp]
              exact hatomh
            simp only [LambdaParser.parseApplication, hatomh2]
            have hloop := parseAppLoop_printed (spineArgs (.app left right))
              (hwfspine.2)
              (fun a ha => hih a (hszargs a ha) (hwfspine.2 a ha))
              (spineHead (.app left right)) rest f1 hrest
              (by
                rw [map_six_sum]
                simp only [Expr.size] at hfuel hsum
                omega)
            rw [hloop, spine_foldl]
      refine ⟨hexpr, ?_⟩
      exact parseAtom_paren (.app left right) rfl hexpr

theorem getLast?_mem_char : ∀ (l : List Char) (a : Char), l.getLast? = some a → a ∈ l := by
  intro l
  induction l with
  | nil => intro a h; cases h
  | cons b t ih =>
    intro a h
    cases t with
    | nil =>
      simp only [List.getLast?_singleton, Option.some.injEq] at h
      simp [h]
    | cons c cs =>
      rw [List.getLast?_cons_cons] at h
      exact List.mem_cons_of_mem b (ih a h)

theorem getLast?_cons_of_ne_nil_char (a : Char) (l : List Char) (h : l ≠ []) :
    (a :: l).getLast? = l.getLast? := by
  cases l with
  | nil => exact absurd rfl h
  | cons c cs => exact List.getLast?_cons_cons

theorem tsL_app_unfold (l r : Expr) :
    tsL (.app l r) =
      (match l with
       | .abs _ _ => '(' :: (tsL l ++ [')'])
       | _ => tsL l) ++
      (' ' :: (match r with
               | .app _ _ => '(' :: (tsL r ++ [')'])
               | .abs _ _ => '(' :: (tsL r ++ [')'])
               | _ => tsL r)) := rfl

theorem size_le_tsL_length : ∀ t : Expr, wfNames t = true → t.size ≤ (tsL t).length := by
  intro t
  induction t with
  | var name =>
    intro h
    have := (validName_data name (by simpa [wfNames] using h)).1
    have : 0 < name.data.length := List.length_pos.mpr this
    simpa [tsL, Expr.size] using this
  | abs param body ih =>
    intro h
    simp only [wfNames, Bool.and_eq_true] at h
    have := ih h.2
    simp only [tsL, Expr.size, List.length_cons, List.length_append]
    omega
  | app left right ihl ihr =>
    intro h
    simp only [wfNames, Bool.and_eq_true] at h
    have h1 := ihl h.1
    have h2 := ihr h.2
    rw [tsL_app_unfold]
    simp only [List.length_append, List.length_cons]
    have hm1 : (tsL left).length ≤
        (match left with
         | .abs _ _ => '(' :: (tsL left ++ [')'])
         | _ => tsL left).length := by
      cases left <;> simp <;> omega
    have hm2 : (tsL right).length ≤
        (match right with
         | .app _ _ => '(' :: (tsL right ++ [')'])
         | .abs _ _ => '(' :: (tsL right ++ [')'])
         | _ => tsL right).length := by
      cases right <;> simp <;> omega
    simp only [Expr.size]
    omega

theorem tsL_head_not_ws (t : Expr) (h : wfNames t = true) :
    ∀ c, (tsL t).head? = some c → LambdaParser.isWhitespaceChar c = false := by
  cases t with
  | var name =>
    intro c hc
    obtain ⟨hne, hall⟩ := validName_data name (by simpa [wfNames] using h)
    cases hd : name.data with
    | nil => exact absurd hd hne
    | cons c0 cs =>
      have : (tsL (.var name)).head? = some c0 := by simp [tsL, hd]
      rw [this] at hc
      cases hc
      exact valid_not_ws c (hall c (by rw [hd]; exact List.mem_cons_self _ _))
  | abs param body =>
    intro c hc
    simp only [tsL, List.head?_cons, Option.some.injEq] at hc
    rw [← hc]
    decide
  | app left right =>
    intro c hc
    rw [ts_app_spine] at hc
    obtain ⟨c0, cs, hpa, hshape⟩ := paL_shape (spineHead (.app left right))
      (wf_spine (.app left right) h).1
    rw [hpa] at hc
    simp only [List.cons_append, List.head?_cons, Option.some.injEq] at hc
    rw [← hc]
    exact (head_facts_of_shape c0 hshape).1

theorem paL_last_not_ws (t : Expr) (h : wfNames t = true) (hne : tsL t ≠ []) :
    ∀ c, (match t with
          | .app _ _ => '(' :: (tsL t ++ [')'])
          | .abs _ _ => '(' :: (tsL t ++ [')'])
          | _ => tsL t).getLast? = some c → LambdaParser.isWhitespaceChar c = false := by
  cases t with
  | var name =>
    intro c hc
    have hmem := getLast?_mem_char _ c hc
    simp only [tsL] at hmem
    exact valid_not_ws c ((validName_data name (by simpa [wfNames] using h)).2 c hmem)
  | abs param body =>
    intro c hc
    have : ('(' :: (tsL (.abs param body) ++ [')'])).getLast? = some ')' := by
      rw [getLast?_cons_of_ne_nil_char '(' _ (by simp), List.getLast?_concat]
    rw [this] at hc
    cases hc
    decide
  | app left right =>
    intro c hc
    have : ('(' :: (tsL (.app left right) ++ [')'])).getLast? = some ')' := by
      rw [getLast?_cons_of_ne_nil_char '(' _ (by simp), List.getLast?_concat]
    rw [this] at hc
    cases hc
    decide

theorem tsL_last_not_ws : ∀ t : Expr, wfNames t = true →
    ∀ c, (tsL t).getLast? = some c → LambdaParser.isWhitespaceChar c = false := by
  intro t
  induction t with
  | var name =>
    intro h c hc
    have hmem := getLast?_mem_char _ c hc
    simp only [tsL] at hmem
    exact valid_not_ws c ((validName_data name (by simpa [wfNames] using h)).2 c hmem)
  | abs param body ih =>
    intro h c hc
    simp only [wfNames, Bool.and_eq_true] at h
    have hbne : tsL body ≠ [] := tsL_ne_nil body h.2
    have hstep : (tsL (.abs param body)).getLast? = (tsL body).getLast? := by
      show ('λ' :: (param.data ++ ('.' :: tsL body))).getLast? = _
      rw [getLast?_cons_of_ne_nil_char 'λ' _ (by simp),
        List.getLast?_append_of_ne_nil _ (by simp),
        getLast?_cons_of_ne_nil_char '.' _ hbne]
    rw [hstep] at hc
    exact ih h.2 c hc
  | app left right _ ihr =>
    intro h c hc
    simp only [wfNames, Bool.and_eq_true] at h
    have hrne : tsL right ≠ [] := tsL_ne_nil right h.2
    have hstep : (tsL (.app left right)).getLast? =
        (match right with
         | .app _ _ => '(' :: (tsL right ++ [')'])
         | .abs _ _ => '(' :: (tsL right ++ [')'])
         | _ => tsL right).getLast? := by
      rw [tsL_app_unfold]
      rw [List.getLast?_append_of_ne_nil _ (by simp)]
      rw [getLast?_cons_of_ne_nil_char ' ' _ (by cases right <;> simp [hrne])]
    rw [hstep] at hc
    exact paL_last_not_ws right h.2 hrne c hc

theorem jsTrim_printed (t : Expr) (h : wfNames t = true) :
    LambdaParser.jsTrim (tsL t) = tsL t := by
  have h1 : (tsL t).dropWhile LambdaParser.isWhitespaceChar = tsL t := by
    cases hd : tsL t with
    | nil => rfl
    | cons c cs =>
      have : (tsL t).head? = some c := by rw [hd]; rfl
      have := tsL_head_not_ws t h c this
      simp [List.dropWhile_cons, this]
  have h2 : (tsL t).reverse.dropWhile LambdaParser.isWhitespaceChar = (tsL t).reverse := by
    cases hd : (tsL t).reverse with
    | nil => rfl
    | cons c cs =>
      have hlast : (tsL t).getLast? = some c := by
        rw [← List.head?_reverse]
        rw [hd]
        rfl
      have := tsL_last_not_ws t h c hlast
      simp [List.dropWhile_cons, this]
  simp only [LambdaParser.jsTrim, h1, h2, List.reverse_reverse]

namespace ClaimProofs

open LambdaEvaluator

/-- C10: for every term whose variable names and parameters are nonempty
strings over [a-zA-Z0-9_], parsing the canonical printed form yields the
original tree: parse (toString t) = ok t. -/
theorem parse_toString_roundtrip (t : Expr) (h : wfNames t = true) :
    LambdaParser.parse (LambdaEvaluator.exprToString t) = .ok t := by
  have hdata := exprToString_data t
  simp only [LambdaParser.parse, hdata, jsTrim_printed t h]
  have hmain := (parse_printed t.size t (le_refl _) h).1 [] (8 * (tsL t).length + 8)
    (Or.inl rfl) (by have := size_le_tsL_length t h; omega)
  rw [List.append_nil] at hmain
  rw [hmain]
  rfl

/-- Witness for C10 at a concrete term: (λf.f x2) y prints as
"(λf.f x2) y" and parses back to itself. -/
theorem parse_toString_roundtrip_witness :
    wfNames (.app (.abs "f" (.app (.var "f") (.var "x2"))) (.var "y")) = true ∧
    LambdaParser.parse (LambdaEvaluator.exprToString
      (.app (.abs "f" (.app (.var "f") (.var "x2"))) (.var "y"))) =
      .ok (.app (.abs "f" (.app (.var "f") (.var "x2"))) (.var "y")) :=
  ⟨by decide, parse_toString_roundtrip
    (.app (.abs "f" (.app (.var "f") (.var "x2"))) (.var "y")) (by decide)⟩

end ClaimProofs

